import Mathlib

/-! Parking lot: slot allocation, departure fees and status listing.

A shallow embedding of `parking_lot.go`.

* Go's `int` is the 64-bit two's-complement integer; values are carried as `Int`
  and the arithmetic of `calculateCharge` is reduced with `wrapInt` after every
  operation.  The counting loops of `Park` and `Status` are given by their number
  of iterations, `capacity` when that is positive and none otherwise, with the
  counter carried as a plain integer.  `Park` increments its counter only past an
  occupied slot and leaves the loop at the first free one, which it meets before
  the counter exceeds the number of entries by more than one, so its counter
  never leaves the 64-bit range.  `Status` increments its counter up to
  `capacity + 1`; at the capacity `2^63 - 1` that increment wraps around to
  `-2^63`, the test `slot <= p.capacity` never fails and the call never returns,
  which the result of `Status` records in its field `returns`.
* Go's `map[int]*Car` is an association list.  The order of the list is the order
  in which a `range` over the map visits the entries; Go leaves that order open,
  so every statement that depends on it is made for an arbitrary list order, and
  reachability is closed under permutations of the list.  A real map has
  pairwise distinct keys (`SlotMap.WF`).
* Every `fmt.Println` / `fmt.Printf` call of the source ends its text with a
  newline; the output of an operation is the list of texts printed, in order,
  without that newline.
* The command interpreter of `main` is given by the body of its loop,
  `processLine`, on the fields of one line.  `strings.Fields` and `strconv.Atoi`
  belong to the Go library: a line is taken as the list of its fields and
  `strconv.Atoi` is a parameter of `processLine`.
-/

namespace ParkingLotModel

/-! ## Data model -/

/-- Car represents a parked car. -/
structure Car where
  RegistrationNo : String
  Slot : Int
deriving DecidableEq

/-- The entries of a `map[int]*Car`, in the order a `range` visits them. -/
abbrev SlotMap := List (Int × Car)

/-- Map lookup `m[i]`: the entry stored under key `i`, if any. -/
def mapGet : SlotMap → Int → Option Car
  | [], _ => none
  | (k, v) :: rest, i => if k = i then some v else mapGet rest i

/-- Map assignment `m[i] = v`: overwrite the entry under `i`, or add a new one. -/
def mapSet : SlotMap → Int → Car → SlotMap
  | [], i, v => [(i, v)]
  | (k, w) :: rest, i, v => if k = i then (i, v) :: rest else (k, w) :: mapSet rest i v

/-- Map deletion `delete(m, i)`. -/
def mapDelete (m : SlotMap) (i : Int) : SlotMap :=
  m.filter (fun e => decide (e.1 ≠ i))

/-- The keys of a map are pairwise distinct. -/
def SlotMap.WF (m : SlotMap) : Prop := (m.map Prod.fst).Nodup

instance (m : SlotMap) : Decidable (SlotMap.WF m) := by
  unfold SlotMap.WF; infer_instance

/-- ParkingLot manages the parking slots. -/
structure ParkingLot where
  capacity : Int
  slots : SlotMap
deriving DecidableEq

/-! ## Machine arithmetic -/

/-- Reduction of an integer to the 64-bit two's-complement range. -/
def wrapInt (x : Int) : Int := (x + 2 ^ 63) % 2 ^ 64 - 2 ^ 63

/-- The values a Go `int` can take. -/
def isInt64 (x : Int) : Prop := -(2 ^ 63) ≤ x ∧ x < 2 ^ 63

instance (x : Int) : Decidable (isInt64 x) := by
  unfold isInt64; infer_instance

/-! ## Operations -/

/-- NewParkingLot creates a new parking lot with given capacity. -/
def NewParkingLot (capacity : Int) : ParkingLot :=
  { capacity := capacity, slots := [] }

/-- CreateParkingLot initializes the parking lot. -/
def ParkingLot.CreateParkingLot (p : ParkingLot) (capacity : Int) : ParkingLot :=
  { p with capacity := capacity, slots := [] }

/-- The loop `for i := 1; i <= p.capacity; i++` of `Park`, entered at counter `i`
with `n` iterations left: the first counter value whose slot is not occupied. -/
def parkLoop (slots : SlotMap) : Nat → Int → Option Int
  | 0, _ => none
  | n + 1, i =>
    match mapGet slots i with
    | none => some i
    | some _ => parkLoop slots n (i + 1)

/-- Park allocates a slot to a car. -/
def ParkingLot.Park (p : ParkingLot) (regNo : String) : ParkingLot × List String :=
  if (p.slots.length : Int) ≥ p.capacity then
    (p, ["Sorry, parking lot is full"])
  else
    match parkLoop p.slots p.capacity.toNat 1 with
    | some i =>
      ({ p with slots := mapSet p.slots i { RegistrationNo := regNo, Slot := i } },
        ["Allocated slot number: " ++ toString i])
    | none => (p, [])

/-- calculateCharge computes parking fees. -/
def calculateCharge (hours : Int) : Int :=
  if hours ≤ 2 then 10
  else wrapInt (10 + wrapInt (wrapInt (hours - 2) * 10))

/-- The loop `for slot, car := range p.slots` of `Leave`: the key of the first
entry visited whose car carries the registration. -/
def leaveLoop (regNo : String) : SlotMap → Option Int
  | [] => none
  | (slot, car) :: rest =>
    if car.RegistrationNo = regNo then some slot else leaveLoop regNo rest

/-- Leave removes a car and calculates charges. -/
def ParkingLot.Leave (p : ParkingLot) (regNo : String) (hours : Int) :
    ParkingLot × List String :=
  match leaveLoop regNo p.slots with
  | some slot =>
    ({ p with slots := mapDelete p.slots slot },
      ["Registration number " ++ regNo ++ " with Slot Number " ++ toString slot ++
        " is free with Charge $" ++ toString (calculateCharge hours)])
  | none => (p, ["Registration number " ++ regNo ++ " not found"])

/-- The loop `for slot := 1; slot <= p.capacity; slot++` of `Status`, entered at
counter `slot` with `n` iterations left: the lines printed.  It is used from
counter 1 with at most `2^63 - 1` iterations, so that every counter value it
tests is a 64-bit integer. -/
def statusLoop (slots : SlotMap) : Nat → Int → List String
  | 0, _ => []
  | n + 1, slot =>
    match mapGet slots slot with
    | some car => (toString slot ++ " " ++ car.RegistrationNo) :: statusLoop slots n (slot + 1)
    | none => statusLoop slots n (slot + 1)

/-- The course of a `Status` call: the lot, which the call never writes to, the
lines printed, and whether the call returns.  When `returns` is `false` the call
never returns and goes on printing without end; `output` then holds the lines it
prints until its counter has reached the largest 64-bit integer for the first
time. -/
structure StatusResult where
  lot : ParkingLot
  output : List String
  returns : Bool
deriving DecidableEq

/-- Status prints the current parking lot status.  For a capacity below
`2^63 - 1` the loop ends when its counter reaches `capacity + 1`.  At the capacity
`2^63 - 1` the counter wraps around from `2^63 - 1` to `-2^63`, so that
`slot <= p.capacity` holds for ever. -/
def ParkingLot.Status (p : ParkingLot) : StatusResult :=
  if p.slots.length = 0 then
    { lot := p, output := [], returns := true }
  else if p.capacity < 2 ^ 63 - 1 then
    { lot := p,
      output := "Slot No. Registration No." :: statusLoop p.slots p.capacity.toNat 1,
      returns := true }
  else
    { lot := p,
      output := "Slot No. Registration No." :: statusLoop p.slots (2 ^ 63 - 1) 1,
      returns := false }

/-- The course of the loop body of `main` on one line: the lot pointer, the lines
printed, and whether the body comes to its end.  When `returns` is `false` the
`Status` call of the line never returns. -/
structure LineResult where
  lot : Option ParkingLot
  output : List String
  returns : Bool
deriving DecidableEq

/-- The body of the loop of `main` for one line of the input, given by its fields
`parts` (the result of `strings.Fields`), on the lot pointer `parkingLot`, which is
`none` as long as it is nil.  `atoi` stands for `strconv.Atoi` of the Go library,
`none` being its error result.  The conditions `len(parts) != 2` and
`len(parts) != 3` are the cases in which the arguments after the command are not
one and not two. -/
def processLine (atoi : String → Option Int) (parkingLot : Option ParkingLot)
    (parts : List String) : LineResult :=
  match parts with
  | [] => { lot := parkingLot, output := [], returns := true }
  | command :: args =>
    if command = "create_parking_lot" then
      match args with
      | [arg] =>
        match atoi arg with
        | none => { lot := parkingLot, output := ["Invalid capacity"], returns := true }
        | some capacity =>
          { lot := some ((NewParkingLot capacity).CreateParkingLot capacity), output := [],
            returns := true }
      | _ =>
        { lot := parkingLot, output := ["Invalid create_parking_lot command"],
          returns := true }
    else if command = "park" then
      match args with
      | [regNo] =>
        match parkingLot with
        | none => { lot := none, output := ["Parking lot not initialized"], returns := true }
        | some lot =>
          { lot := some (lot.Park regNo).1, output := (lot.Park regNo).2, returns := true }
      | _ => { lot := parkingLot, output := ["Invalid park command"], returns := true }
    else if command = "leave" then
      match args with
      | [regNo, hoursText] =>
        match parkingLot with
        | none => { lot := none, output := ["Parking lot not initialized"], returns := true }
        | some lot =>
          match atoi hoursText with
          | none => { lot := parkingLot, output := ["Invalid hours"], returns := true }
          | some hours =>
            { lot := some (lot.Leave regNo hours).1, output := (lot.Leave regNo hours).2,
              returns := true }
      | _ => { lot := parkingLot, output := ["Invalid leave command"], returns := true }
    else if command = "status" then
      match parkingLot with
      | none => { lot := none, output := ["Parking lot not initialized"], returns := true }
      | some lot =>
        { lot := some (lot.Status).lot, output := (lot.Status).output,
          returns := (lot.Status).returns }
    else { lot := parkingLot, output := ["Unknown command: " ++ command], returns := true }

/-- Consecutive `Park` calls, one for each registration of the list in turn;
the outputs are collected in order. -/
def parkAll (p : ParkingLot) : List String → ParkingLot × List String
  | [] => (p, [])
  | r :: rs => ((parkAll (p.Park r).1 rs).1, (p.Park r).2 ++ (parkAll (p.Park r).1 rs).2)

/-- The map in which the registrations of the list occupy the consecutive slot
numbers `start + 1`, `start + 2`, ... in turn. -/
def consecutiveSlots (start : Nat) : List String → SlotMap
  | [] => []
  | r :: rs =>
    ((start : Int) + 1, { RegistrationNo := r, Slot := (start : Int) + 1 }) ::
      consecutiveSlots (start + 1) rs

/-- The lot states that a run of the program can reach: a lot is created by
`NewParkingLot`, and every call of `CreateParkingLot`, `Park`, `Leave` or `Status`
leads from a reachable state to a reachable state.  `initOk` restricts the
capacity the lot is first created with, `createOk` the capacities of the later
`CreateParkingLot` calls, and `parkOk` the registrations `Park` is called with in
a given state.  As the order in which a `range` visits the map is not fixed, a
reachable state stays reachable when its entries are permuted. -/
inductive ReachableBy (initOk createOk : Int → Prop)
    (parkOk : ParkingLot → String → Prop) : ParkingLot → Prop
  | init (n : Int) : initOk n → ReachableBy initOk createOk parkOk (NewParkingLot n)
  | create (p : ParkingLot) (n : Int) :
      ReachableBy initOk createOk parkOk p → createOk n →
      ReachableBy initOk createOk parkOk (p.CreateParkingLot n)
  | park (p : ParkingLot) (r : String) :
      ReachableBy initOk createOk parkOk p → parkOk p r →
      ReachableBy initOk createOk parkOk (p.Park r).1
  | leave (p : ParkingLot) (r : String) (hours : Int) :
      ReachableBy initOk createOk parkOk p →
      ReachableBy initOk createOk parkOk (p.Leave r hours).1
  | status (p : ParkingLot) :
      ReachableBy initOk createOk parkOk p →
      ReachableBy initOk createOk parkOk (p.Status).lot
  | reorder (p : ParkingLot) (order : SlotMap) :
      ReachableBy initOk createOk parkOk p → order.Perm p.slots →
      ReachableBy initOk createOk parkOk { p with slots := order }

/-- The entries of the map found by counting `n` slot numbers upwards from `i`. -/
def scanEntries (slots : SlotMap) : Nat → Int → SlotMap
  | 0, _ => []
  | n + 1, i =>
    match mapGet slots i with
    | some car => (i, car) :: scanEntries slots n (i + 1)
    | none => scanEntries slots n (i + 1)

/-- A lot of capacity 2 in which slot 2 was filled before slot 1 was filled again. -/
def refilledLot : ParkingLot :=
  (((((NewParkingLot 2).Park "KA-01-HH-1234").1.Park "KA-01-HH-9999").1.Leave
    "KA-01-HH-1234" 4).1.Park "KA-01-BB-0001").1

/-- A lot of capacity 2 after two `Park` calls with the same registration. -/
def twiceParkedLot : ParkingLot :=
  (((NewParkingLot 2).Park "KA-01-HH-1234").1.Park "KA-01-HH-1234").1

/-- A lot of capacity 3 that was used, initialised again with capacity 2 and used
again. -/
def reinitialisedLot : ParkingLot :=
  (((((((NewParkingLot 3).Park "KA-01-HH-1234").1.Park "KA-01-HH-9999").1.Leave
    "KA-01-HH-1234" 4).1.CreateParkingLot 2).Park "KA-01-BB-0001").1.Status).lot

/-- A lot created with capacity 0 and initialised again with capacity -1. -/
def shrunkLot : ParkingLot := (NewParkingLot 0).CreateParkingLot (-1)

/-- A lot of capacity 2 in which a registration left and was parked again. -/
def reparkedLot : ParkingLot :=
  (((((NewParkingLot 2).Park "KA-01-HH-1234").1.Park "KA-01-HH-9999").1.Leave
    "KA-01-HH-1234" 4).1.Park "KA-01-HH-1234").1

/-- A lot created with the largest 64-bit capacity, with one car parked. -/
def largestCapacityLot : ParkingLot :=
  ((NewParkingLot 9223372036854775807).Park "KA-01-HH-1234").1

/-- A lot of capacity 3 with one car, in slot 1. -/
def singleCarLot : ParkingLot :=
  { capacity := 3, slots := [(1, { RegistrationNo := "KA-01-HH-1234", Slot := 1 })] }

/-- A full lot of capacity 2. -/
def fullLot : ParkingLot :=
  (((NewParkingLot 2).Park "KA-01-HH-1234").1.Park "KA-01-HH-9999").1

/-- The lot of the end-to-end scenario after `create_parking_lot 3`: `main` calls
`NewParkingLot` and then `CreateParkingLot` with the capacity read. -/
def scenarioCreated : ParkingLot := (NewParkingLot 3).CreateParkingLot 3

/-- The scenario after `park KA-01-HH-1234`. -/
def scenarioParked1 : ParkingLot := (scenarioCreated.Park "KA-01-HH-1234").1

/-- The scenario after `park KA-01-HH-9999`. -/
def scenarioParked2 : ParkingLot := (scenarioParked1.Park "KA-01-HH-9999").1

/-- The scenario after `park KA-01-BB-0001`. -/
def scenarioParked3 : ParkingLot := (scenarioParked2.Park "KA-01-BB-0001").1

/-- The scenario after `park KA-01-HH-7777`. -/
def scenarioParked4 : ParkingLot := (scenarioParked3.Park "KA-01-HH-7777").1

/-- The scenario after `leave KA-01-HH-1234 4`. -/
def scenarioLeft : ParkingLot := (scenarioParked4.Leave "KA-01-HH-1234" 4).1

/-- A lot created with capacity -2 on which `Park`, `Leave` and `Status` were
called. -/
def negativeLot : ParkingLot :=
  ((((NewParkingLot (-2)).Park "KA-01-HH-1234").1.Leave "KA-01-HH-1234" 4).1.Status).lot

/-! ## Lemmas on the map operations -/

theorem mapGet_mapSet (m : SlotMap) (i j : Int) (v : Car) :
    mapGet (mapSet m i v) j = if i = j then some v else mapGet m j := by
  induction m with
  | nil => simp [mapSet, mapGet]
  | cons e rest ih =>
    obtain ⟨k, w⟩ := e
    by_cases hk : k = i
    · subst hk
      by_cases hj : k = j <;> simp [mapSet, mapGet, hj]
    · by_cases hj : k = j
      · subst hj
        have : ¬ i = k := fun h => hk h.symm
        simp [mapSet, mapGet, hk, this]
      · simp [mapSet, mapGet, hk, hj, ih]

theorem mapGet_eq_none_iff (m : SlotMap) (i : Int) :
    mapGet m i = none ↔ i ∉ m.map Prod.fst := by
  induction m with
  | nil => simp [mapGet]
  | cons e rest ih =>
    obtain ⟨k, w⟩ := e
    by_cases hk : k = i
    · simp [mapGet, hk]
    · have : ¬ i = k := fun h => hk h.symm
      simp [mapGet, hk, ih, this]

theorem mapSet_of_none (m : SlotMap) (i : Int) (v : Car) (h : mapGet m i = none) :
    mapSet m i v = m ++ [(i, v)] := by
  induction m with
  | nil => simp [mapSet]
  | cons e rest ih =>
    obtain ⟨k, w⟩ := e
    by_cases hk : k = i
    · simp [mapGet, hk] at h
    · simp only [mapGet, hk, if_false] at h
      simp [mapSet, hk, ih h]

theorem mem_of_mapGet (m : SlotMap) (i : Int) (v : Car) (h : mapGet m i = some v) :
    (i, v) ∈ m := by
  induction m with
  | nil => simp [mapGet] at h
  | cons e rest ih =>
    obtain ⟨k, w⟩ := e
    by_cases hk : k = i
    · simp [mapGet, hk] at h
      simp [hk, h]
    · simp only [mapGet, hk, if_false] at h
      exact List.mem_cons_of_mem _ (ih h)

theorem mapGet_of_mem (m : SlotMap) (hwf : SlotMap.WF m) (i : Int) (v : Car)
    (h : (i, v) ∈ m) : mapGet m i = some v := by
  induction m with
  | nil => simp at h
  | cons e rest ih =>
    obtain ⟨k, w⟩ := e
    simp only [SlotMap.WF, List.map_cons, List.nodup_cons] at hwf
    rcases List.mem_cons.mp h with heq | hmem
    · simp only [Prod.mk.injEq] at heq
      simp [mapGet, heq.1, heq.2]
    · have hne : k ≠ i := by
        intro hk
        apply hwf.1
        rw [hk]
        exact List.mem_map_of_mem Prod.fst hmem
      simp only [mapGet, hne, if_false]
      exact ih hwf.2 hmem

theorem mapDelete_cons (k : Int) (w : Car) (rest : SlotMap) (i : Int) :
    mapDelete ((k, w) :: rest) i =
      if k = i then mapDelete rest i else (k, w) :: mapDelete rest i := by
  by_cases hk : k = i <;> simp [mapDelete, List.filter_cons, hk]

theorem mapGet_mapDelete (m : SlotMap) (i j : Int) :
    mapGet (mapDelete m i) j = if i = j then none else mapGet m j := by
  induction m with
  | nil => simp [mapDelete, mapGet]
  | cons e rest ih =>
    obtain ⟨k, w⟩ := e
    rw [mapDelete_cons]
    by_cases hk : k = i
    · subst hk
      by_cases hj : k = j
      · subst hj
        simp [ih]
      · simp [mapGet, hj, ih]
    · by_cases hj : k = j
      · subst hj
        have : ¬ i = k := fun h => hk h.symm
        simp [mapGet, hk, this]
      · simp [mapGet, hk, hj, ih]

/-! ## The scan of `Park` -/

theorem parkLoop_some (slots : SlotMap) (n : Nat) (i j : Int)
    (h : parkLoop slots n i = some j) :
    i ≤ j ∧ j < i + n ∧ mapGet slots j = none ∧
      ∀ k, i ≤ k → k < j → mapGet slots k ≠ none := by
  induction n generalizing i with
  | zero => simp [parkLoop] at h
  | succ n ih =>
    unfold parkLoop at h
    cases hg : mapGet slots i with
    | none =>
      simp only [hg, Option.some.injEq] at h
      subst h
      refine ⟨le_refl _, by push_cast; omega, hg, ?_⟩
      intro k h1 h2
      omega
    | some c =>
      simp only [hg] at h
      obtain ⟨h1, h2, h3, h4⟩ := ih (i + 1) h
      refine ⟨by omega, by push_cast; omega, h3, ?_⟩
      intro k hk1 hk2
      by_cases hki : k = i
      · subst hki
        simp [hg]
      · exact h4 k (by omega) hk2

theorem parkLoop_none (slots : SlotMap) (n : Nat) (i : Int)
    (h : parkLoop slots n i = none) :
    ∀ k, i ≤ k → k < i + n → mapGet slots k ≠ none := by
  induction n generalizing i with
  | zero =>
    intro k h1 h2
    simp at h2
    omega
  | succ n ih =>
    unfold parkLoop at h
    cases hg : mapGet slots i with
    | none => simp [hg] at h
    | some c =>
      simp only [hg] at h
      intro k hk1 hk2
      by_cases hki : k = i
      · subst hki
        simp [hg]
      · exact ih (i + 1) h k (by omega) (by push_cast at hk2; omega)

/-- Pigeonhole: when `n` consecutive slot numbers are all occupied, the map has at
least `n` entries. -/
theorem occupied_run_le_length (slots : SlotMap) (i : Int) (n : Nat)
    (h : ∀ k, i ≤ k → k < i + n → mapGet slots k ≠ none) : n ≤ slots.length := by
  have hnd : ((List.range n).map (fun t : Nat => i + (t : Int))).Nodup := by
    apply List.Nodup.map _ (List.nodup_range n)
    intro a b hab
    simpa using hab
  have hsub : (List.range n).map (fun t : Nat => i + (t : Int)) ⊆ slots.map Prod.fst := by
    intro k hk
    obtain ⟨t, ht, rfl⟩ := List.mem_map.mp hk
    have ht' : t < n := List.mem_range.mp ht
    by_contra hc
    exact h (i + t) (by omega) (by omega) ((mapGet_eq_none_iff slots _).mpr hc)
  have := (List.subperm_of_subset hnd hsub).length_le
  simpa using this

/-- With fewer entries than `capacity`, the scan of `Park` finds a slot. -/
theorem parkLoop_isSome (slots : SlotMap) (capacity : Int)
    (h : (slots.length : Int) < capacity) :
    ∃ i, parkLoop slots capacity.toNat 1 = some i := by
  cases hp : parkLoop slots capacity.toNat 1 with
  | some i => exact ⟨i, rfl⟩
  | none =>
    have := occupied_run_le_length slots 1 capacity.toNat (parkLoop_none slots _ 1 hp)
    omega

/-- What `Park` does when the lot is not full, in terms of the slot its scan finds. -/
theorem Park_of_lt (p : ParkingLot) (r : String)
    (h : (p.slots.length : Int) < p.capacity) :
    ∃ i : Int, parkLoop p.slots p.capacity.toNat 1 = some i ∧
      p.Park r = ({ p with slots := mapSet p.slots i { RegistrationNo := r, Slot := i } },
        ["Allocated slot number: " ++ toString i]) := by
  obtain ⟨i, hi⟩ := parkLoop_isSome p.slots p.capacity h
  refine ⟨i, hi, ?_⟩
  unfold ParkingLot.Park
  rw [if_neg (by omega), hi]

theorem Park_of_ge (p : ParkingLot) (r : String)
    (h : (p.slots.length : Int) ≥ p.capacity) :
    p.Park r = (p, ["Sorry, parking lot is full"]) := by
  unfold ParkingLot.Park
  rw [if_pos h]

/-! ## Consecutive parking into a fresh lot -/

theorem length_consecutiveSlots (s : Nat) (rs : List String) :
    (consecutiveSlots s rs).length = rs.length := by
  induction rs generalizing s with
  | nil => rfl
  | cons r rs ih => simp [consecutiveSlots, ih]

theorem consecutiveSlots_append (s : Nat) (rs : List String) (r : String) :
    consecutiveSlots s (rs ++ [r]) = consecutiveSlots s rs ++
      [((s : Int) + rs.length + 1,
        { RegistrationNo := r, Slot := (s : Int) + rs.length + 1 })] := by
  induction rs generalizing s with
  | nil => simp [consecutiveSlots]
  | cons r' rs ih =>
    have hcast : ((s + 1 : Nat) : Int) + rs.length + 1 =
        (s : Int) + ((rs.length + 1 : Nat) : Int) + 1 := by
      push_cast
      ring
    rw [List.cons_append, consecutiveSlots, consecutiveSlots, ih (s + 1), List.cons_append,
      List.length_cons, hcast]

theorem mapGet_consecutiveSlots_eq_none (s : Nat) (rs : List String) (k : Int) :
    mapGet (consecutiveSlots s rs) k = none ↔ (k ≤ s ∨ (s : Int) + rs.length < k) := by
  induction rs generalizing s with
  | nil =>
    simp only [consecutiveSlots, mapGet, List.length_nil, true_iff]
    push_cast
    omega
  | cons r rs ih =>
    by_cases hk : (s : Int) + 1 = k
    · simp only [consecutiveSlots, mapGet, hk, if_true, List.length_cons]
      push_cast
      constructor
      · intro h
        cases h
      · intro h
        omega
    · simp only [consecutiveSlots, mapGet, hk, if_false, ih, List.length_cons]
      push_cast
      omega

theorem parkAll_consecutive (rs done : List String) (p : ParkingLot)
    (hs : p.slots = consecutiveSlots 0 done)
    (hc : ((done.length + rs.length : Nat) : Int) ≤ p.capacity) :
    parkAll p rs = ({ p with slots := consecutiveSlots 0 (done ++ rs) },
      (List.range' (done.length + 1) rs.length).map
        (fun k : Nat => "Allocated slot number: " ++ toString (k : Int))) := by
  induction rs generalizing done p with
  | nil =>
    simp only [parkAll, List.append_nil, List.length_nil, List.range'_zero, List.map_nil]
    rw [← hs]
  | cons r rs ih =>
    have hlen : p.slots.length = done.length := by rw [hs, length_consecutiveSlots]
    have hlt : (p.slots.length : Int) < p.capacity := by
      rw [hlen]
      simp only [List.length_cons] at hc
      push_cast at hc
      omega
    obtain ⟨i, hi, hP⟩ := Park_of_lt p r hlt
    obtain ⟨h1, _, h3, h4⟩ := parkLoop_some _ _ _ _ hi
    have hi_eq : i = (done.length : Int) + 1 := by
      rw [hs] at h3 h4
      have hA := (mapGet_consecutiveSlots_eq_none 0 done i).mp h3
      by_contra hne
      have hB : mapGet (consecutiveSlots 0 done) ((done.length : Int) + 1) = none :=
        (mapGet_consecutiveSlots_eq_none 0 done _).mpr (by push_cast; omega)
      exact h4 ((done.length : Int) + 1) (by omega) (by push_cast at hA; omega) hB
    subst hi_eq
    have hset : mapSet p.slots ((done.length : Int) + 1)
        { RegistrationNo := r, Slot := (done.length : Int) + 1 } =
        consecutiveSlots 0 (done ++ [r]) := by
      rw [mapSet_of_none _ _ _ h3, hs, consecutiveSlots_append]
      simp
    rw [hset] at hP
    have hih := ih (done ++ [r]) (p.Park r).1 (by rw [hP]) (by
      rw [hP]
      simp only [List.length_append, List.length_cons, List.length_nil] at hc ⊢
      push_cast at hc ⊢
      omega)
    simp only [parkAll]
    rw [hih, hP]
    simp only [List.append_assoc, List.singleton_append, List.length_append, List.length_cons,
      List.length_nil, List.range'_succ, List.map_cons]
    push_cast
    simp

/-! ## The scan of `Leave` -/

theorem leaveLoop_eq_none_iff (r : String) (m : SlotMap) :
    leaveLoop r m = none ↔ ∀ e ∈ m, e.2.RegistrationNo ≠ r := by
  induction m with
  | nil => simp [leaveLoop]
  | cons e rest ih =>
    obtain ⟨k, w⟩ := e
    by_cases hw : w.RegistrationNo = r
    · simp [leaveLoop, hw]
    · simp [leaveLoop, hw, ih]

theorem leaveLoop_some (r : String) (m : SlotMap) (s : Int) (h : leaveLoop r m = some s) :
    ∃ c, (s, c) ∈ m ∧ c.RegistrationNo = r := by
  induction m with
  | nil => simp [leaveLoop] at h
  | cons e rest ih =>
    obtain ⟨k, w⟩ := e
    by_cases hw : w.RegistrationNo = r
    · simp only [leaveLoop, hw, if_true, Option.some.injEq] at h
      subst h
      exact ⟨w, List.mem_cons_self _ _, hw⟩
    · simp only [leaveLoop, hw, if_false] at h
      obtain ⟨c, hc1, hc2⟩ := ih h
      exact ⟨c, List.mem_cons_of_mem _ hc1, hc2⟩

theorem WF_perm (m m' : SlotMap) (hp : m'.Perm m) (hwf : SlotMap.WF m) : SlotMap.WF m' := by
  unfold SlotMap.WF at hwf ⊢
  exact (hp.map Prod.fst).nodup_iff.mpr hwf

/-- Lookup in a key-distinct map does not depend on the order of the entries. -/
theorem mapGet_perm (m m' : SlotMap) (hp : m'.Perm m) (hwf : SlotMap.WF m) (j : Int) :
    mapGet m' j = mapGet m j := by
  have hwf' := WF_perm m m' hp hwf
  cases h : mapGet m j with
  | none =>
    rw [mapGet_eq_none_iff] at h ⊢
    intro hc
    exact h ((hp.map Prod.fst).mem_iff.mp hc)
  | some v =>
    exact mapGet_of_mem m' hwf' j v (hp.mem_iff.mpr (mem_of_mapGet m j v h))

/-! ## Lemmas on the machine arithmetic -/

theorem wrapInt_of_isInt64 (x : Int) (h : isInt64 x) : wrapInt x = x := by
  unfold isInt64 at h
  unfold wrapInt
  omega

/-! ## One step of each operation -/

theorem Park_cases (p : ParkingLot) (r : String) :
    (p.Park r).1 = p ∨
    ∃ i : Int, 1 ≤ i ∧ i ≤ p.capacity ∧ mapGet p.slots i = none ∧
      (p.slots.length : Int) < p.capacity ∧
      (p.Park r).1 =
        { p with slots := p.slots ++ [(i, { RegistrationNo := r, Slot := i })] } := by
  by_cases h : (p.slots.length : Int) ≥ p.capacity
  · left
    rw [Park_of_ge p r h]
  · right
    have hlt : (p.slots.length : Int) < p.capacity := by omega
    obtain ⟨i, hi, hP⟩ := Park_of_lt p r hlt
    obtain ⟨h1, h2, h3, _⟩ := parkLoop_some _ _ _ _ hi
    refine ⟨i, h1, by omega, h3, hlt, ?_⟩
    rw [hP, mapSet_of_none _ _ _ h3]

theorem Leave_cases (p : ParkingLot) (r : String) (hours : Int) :
    (p.Leave r hours).1 = p ∨
    ∃ s : Int, (p.Leave r hours).1 = { p with slots := mapDelete p.slots s } := by
  unfold ParkingLot.Leave
  cases leaveLoop r p.slots with
  | none => exact Or.inl rfl
  | some s => exact Or.inr ⟨s, rfl⟩

theorem Status_state (p : ParkingLot) : (p.Status).lot = p := by
  unfold ParkingLot.Status
  split_ifs <;> rfl

theorem mapDelete_sublist (m : SlotMap) (s : Int) : (mapDelete m s).Sublist m :=
  List.filter_sublist m

/-! ## Invariants of the reachable states -/

/-- In a reachable state the keys of the map are pairwise distinct, lie in
`[1, capacity]`, and each record carries the key it is stored under. -/
theorem reachable_inv (initOk createOk : Int → Prop)
    (parkOk : ParkingLot → String → Prop)
    (p : ParkingLot) (h : ReachableBy initOk createOk parkOk p) :
    SlotMap.WF p.slots ∧ ∀ e ∈ p.slots, 1 ≤ e.1 ∧ e.1 ≤ p.capacity ∧ e.2.Slot = e.1 := by
  induction h with
  | init n _ => simp [NewParkingLot, SlotMap.WF]
  | create p n _ _ _ => simp [ParkingLot.CreateParkingLot, SlotMap.WF]
  | park p r _ _ ih =>
    rcases Park_cases p r with hP | ⟨i, h1, h2, h3, _, hP⟩
    · rw [hP]
      exact ih
    · rw [hP]
      constructor
      · have hni := (mapGet_eq_none_iff p.slots i).mp h3
        have hwf := ih.1
        unfold SlotMap.WF at hwf ⊢
        simp only [List.map_append, List.map_cons, List.map_nil]
        exact List.Nodup.append hwf (List.nodup_singleton i) (by
          intro k hk1 hk2
          rw [List.mem_singleton] at hk2
          exact hni (hk2 ▸ hk1))
      · intro e he
        rcases List.mem_append.mp he with he | he
        · exact ih.2 e he
        · rw [List.mem_singleton] at he
          subst he
          exact ⟨h1, h2, rfl⟩
  | leave p r hours _ ih =>
    rcases Leave_cases p r hours with hL | ⟨s, hL⟩
    · rw [hL]
      exact ih
    · rw [hL]
      constructor
      · have hwf := ih.1
        unfold SlotMap.WF at hwf ⊢
        exact List.Nodup.sublist ((mapDelete_sublist p.slots s).map Prod.fst) hwf
      · intro e he
        exact ih.2 e ((mapDelete_sublist p.slots s).subset he)
  | status p _ ih =>
    rw [Status_state]
    exact ih
  | reorder p order _ hperm ih =>
    constructor
    · exact WF_perm _ _ hperm ih.1
    · intro e he
      exact ih.2 e (hperm.mem_iff.mp he)

/-- When every initialisation is given a capacity ≥ 0, the map never holds more
entries than the capacity. -/
theorem reachable_count (parkOk : ParkingLot → String → Prop)
    (p : ParkingLot) (h : ReachableBy (fun n => 0 ≤ n) (fun n => 0 ≤ n) parkOk p) :
    (p.slots.length : Int) ≤ p.capacity := by
  induction h with
  | init n hn => simpa [NewParkingLot] using hn
  | create p n _ hn _ => simpa [ParkingLot.CreateParkingLot] using hn
  | park p r _ _ ih =>
    rcases Park_cases p r with hP | ⟨i, _, _, _, hlt, hP⟩
    · rw [hP]
      exact ih
    · rw [hP]
      simp only [List.length_append, List.length_cons, List.length_nil]
      push_cast
      omega
  | leave p r hours _ ih =>
    rcases Leave_cases p r hours with hL | ⟨s, hL⟩
    · rw [hL]
      exact ih
    · rw [hL]
      have := (mapDelete_sublist p.slots s).length_le
      simp only
      omega
  | status p _ ih =>
    rw [Status_state]
    exact ih
  | reorder p order _ hperm ih =>
    simp only
    rw [hperm.length_eq]
    exact ih

/-! ## The scan of `Status` -/

theorem statusLoop_eq_map (slots : SlotMap) (n : Nat) (i : Int) :
    statusLoop slots n i =
      (scanEntries slots n i).map (fun e => toString e.1 ++ " " ++ e.2.RegistrationNo) := by
  induction n generalizing i with
  | zero => rfl
  | succ n ih =>
    unfold statusLoop scanEntries
    cases mapGet slots i with
    | none => exact ih (i + 1)
    | some car => simp [ih (i + 1)]

theorem mem_scanEntries (slots : SlotMap) (n : Nat) (i : Int) (e : Int × Car) :
    e ∈ scanEntries slots n i ↔
      (i ≤ e.1 ∧ e.1 < i + n) ∧ mapGet slots e.1 = some e.2 := by
  induction n generalizing i with
  | zero =>
    simp only [scanEntries, List.not_mem_nil, false_iff]
    intro h
    have := h.1
    simp at this
    omega
  | succ n ih =>
    unfold scanEntries
    cases hg : mapGet slots i with
    | none =>
      simp only [ih (i + 1)]
      constructor
      · rintro ⟨⟨h1, h2⟩, h3⟩
        exact ⟨⟨by omega, by push_cast; omega⟩, h3⟩
      · rintro ⟨⟨h1, h2⟩, h3⟩
        have hne : e.1 ≠ i := by
          intro he
          rw [he, hg] at h3
          cases h3
        exact ⟨⟨by omega, by push_cast at h2; omega⟩, h3⟩
    | some car =>
      simp only [List.mem_cons, ih (i + 1)]
      constructor
      · rintro (h | ⟨⟨h1, h2⟩, h3⟩)
        · subst h
          exact ⟨⟨le_refl _, by push_cast; omega⟩, hg⟩
        · exact ⟨⟨by omega, by push_cast; omega⟩, h3⟩
      · rintro ⟨⟨h1, h2⟩, h3⟩
        by_cases he : e.1 = i
        · left
          rw [he, hg] at h3
          cases h3
          exact Prod.ext he rfl
        · right
          exact ⟨⟨by omega, by push_cast at h2; omega⟩, h3⟩

theorem scanEntries_sorted (slots : SlotMap) (n : Nat) (i : Int) :
    ((scanEntries slots n i).map Prod.fst).Pairwise (fun a b => a < b) := by
  induction n generalizing i with
  | zero => simp [scanEntries]
  | succ n ih =>
    unfold scanEntries
    cases hg : mapGet slots i with
    | none => exact ih (i + 1)
    | some car =>
      simp only [List.map_cons, List.pairwise_cons]
      refine ⟨?_, ih (i + 1)⟩
      intro k hk
      obtain ⟨e, he, rfl⟩ := List.mem_map.mp hk
      have := ((mem_scanEntries slots n (i + 1) e).mp he).1.1
      omega

theorem scanEntries_perm (slots : SlotMap) (n : Nat) (i : Int) (hwf : SlotMap.WF slots)
    (hrange : ∀ e ∈ slots, i ≤ e.1 ∧ e.1 < i + n) :
    (scanEntries slots n i).Perm slots := by
  have hnd1 : (scanEntries slots n i).Nodup := by
    apply List.Nodup.of_map Prod.fst
    exact (scanEntries_sorted slots n i).imp (fun h => ne_of_lt h)
  have hnd2 : slots.Nodup := List.Nodup.of_map Prod.fst hwf
  rw [List.perm_ext_iff_of_nodup hnd1 hnd2]
  intro e
  rw [mem_scanEntries]
  constructor
  · rintro ⟨_, h⟩
    exact mem_of_mapGet slots e.1 e.2 h
  · intro he
    exact ⟨hrange e he, mapGet_of_mem slots hwf e.1 e.2 he⟩

/-! ## Registrations of the reachable states -/

theorem not_held_of_entries (m : SlotMap) (r : String)
    (h : ∀ e ∈ m, e.2.RegistrationNo ≠ r) :
    ∀ s c, mapGet m s = some c → c.RegistrationNo ≠ r :=
  fun s c hg => h (s, c) (mem_of_mapGet m s c hg)

theorem unique_of_entries (m : SlotMap) (r : String) (s : Int)
    (h : ∀ e ∈ m, e.2.RegistrationNo = r → e.1 = s) :
    ∀ s' c', mapGet m s' = some c' → c'.RegistrationNo = r → s' = s :=
  fun s' c' hg hc => h (s', c') (mem_of_mapGet m s' c' hg) hc

/-- When `Park` is never called with a registration that an occupied slot holds,
the registrations of the entries are pairwise distinct. -/
theorem reachable_regs_nodup (initOk createOk : Int → Prop) (p : ParkingLot)
    (h : ReachableBy initOk createOk
      (fun q r => ∀ s c, mapGet q.slots s = some c → c.RegistrationNo ≠ r) p) :
    (p.slots.map (fun e => e.2.RegistrationNo)).Nodup := by
  induction h with
  | init n _ => simp [NewParkingLot]
  | create p n _ _ _ => simp [ParkingLot.CreateParkingLot]
  | park p r hp hok ih =>
    rcases Park_cases p r with hP | ⟨i, _, _, _, _, hP⟩
    · rw [hP]
      exact ih
    · rw [hP]
      have hwf := (reachable_inv _ _ _ p hp).1
      simp only [List.map_append, List.map_cons, List.map_nil]
      refine List.Nodup.append ih (List.nodup_singleton r) ?_
      intro k hk1 hk2
      rw [List.mem_singleton] at hk2
      subst hk2
      obtain ⟨e, he, hek⟩ := List.mem_map.mp hk1
      exact hok e.1 e.2 (mapGet_of_mem p.slots hwf e.1 e.2 he) hek
  | leave p r hours _ ih =>
    rcases Leave_cases p r hours with hL | ⟨s, hL⟩
    · rw [hL]
      exact ih
    · rw [hL]
      exact List.Nodup.sublist ((mapDelete_sublist p.slots s).map _) ih
  | status p _ ih =>
    rw [Status_state]
    exact ih
  | reorder p order _ hperm ih =>
    exact (hperm.map _).nodup_iff.mpr ih

/-! ## Further lemmas on `Park`, `Leave` and the size of the map -/

/-- What `Park` does when the lot is not full: the slot found is the least free
slot number of `[1, capacity]`. -/
theorem Park_of_lt_spec (p : ParkingLot) (r : String)
    (h : (p.slots.length : Int) < p.capacity) :
    ∃ i : Int, (1 ≤ i ∧ i ≤ p.capacity) ∧ mapGet p.slots i = none ∧
      (∀ j, 1 ≤ j → j < i → mapGet p.slots j ≠ none) ∧
      p.Park r = ({ p with slots := mapSet p.slots i { RegistrationNo := r, Slot := i } },
        ["Allocated slot number: " ++ toString i]) := by
  obtain ⟨i, hi, hP⟩ := Park_of_lt p r h
  obtain ⟨h1, h2, h3, h4⟩ := parkLoop_some _ _ _ _ hi
  exact ⟨i, ⟨h1, by omega⟩, h3, h4, hP⟩

/-- A scan that finds a slot finds the same slot when given more iterations. -/
theorem parkLoop_mono (slots : SlotMap) (n m : Nat) (i j : Int)
    (h : parkLoop slots n i = some j) (hnm : n ≤ m) : parkLoop slots m i = some j := by
  induction n generalizing i m with
  | zero => simp [parkLoop] at h
  | succ n ih =>
    obtain ⟨m', rfl⟩ : ∃ m', m = m' + 1 := ⟨m - 1, by omega⟩
    unfold parkLoop at h ⊢
    cases hg : mapGet slots i with
    | none =>
      simp only [hg] at h ⊢
      exact h
    | some c =>
      simp only [hg] at h ⊢
      exact ih m' (i + 1) h (by omega)

theorem mapDelete_of_not_mem (m : SlotMap) (s : Int) (h : s ∉ m.map Prod.fst) :
    mapDelete m s = m := by
  induction m with
  | nil => rfl
  | cons e rest ih =>
    obtain ⟨k, w⟩ := e
    simp only [List.map_cons, List.mem_cons, not_or] at h
    have hk : ¬ k = s := fun e => h.1 e.symm
    rw [mapDelete_cons, if_neg hk, ih h.2]

/-- Deleting an occupied key of a key-distinct map removes exactly one entry. -/
theorem length_mapDelete (m : SlotMap) (hwf : SlotMap.WF m) (s : Int) (c : Car)
    (h : mapGet m s = some c) : (mapDelete m s).length + 1 = m.length := by
  induction m with
  | nil => simp [mapGet] at h
  | cons e rest ih =>
    obtain ⟨k, w⟩ := e
    simp only [SlotMap.WF, List.map_cons, List.nodup_cons] at hwf
    by_cases hk : k = s
    · subst hk
      rw [mapDelete_cons, if_pos rfl, mapDelete_of_not_mem rest k hwf.1]
      rfl
    · simp only [mapGet, hk, if_false] at h
      rw [mapDelete_cons, if_neg hk]
      simp only [List.length_cons]
      rw [ih hwf.2 h]

/-- A key-distinct map whose keys lie in `[1, capacity]` has at most `capacity`
entries. -/
theorem length_le_of_keys_in_range (m : SlotMap) (capacity : Int) (hwf : SlotMap.WF m)
    (hkeys : ∀ e ∈ m, 1 ≤ e.1 ∧ e.1 ≤ capacity) : m.length ≤ capacity.toNat := by
  have hsub : m.map Prod.fst ⊆
      (List.range capacity.toNat).map (fun t : Nat => 1 + (t : Int)) := by
    intro k hk
    obtain ⟨e, he, rfl⟩ := List.mem_map.mp hk
    obtain ⟨h1, h2⟩ := hkeys e he
    refine List.mem_map.mpr ⟨(e.1 - 1).toNat, List.mem_range.mpr (by omega), by omega⟩
  have := (List.subperm_of_subset hwf hsub).length_le
  simpa using this

/-- In a key-distinct map with keys in `[1, capacity]` and at least `capacity`
entries, every slot number of `[1, capacity]` is occupied. -/
theorem all_occupied_of_full (m : SlotMap) (capacity : Int) (hwf : SlotMap.WF m)
    (hkeys : ∀ e ∈ m, 1 ≤ e.1 ∧ e.1 ≤ capacity) (hfull : (m.length : Int) ≥ capacity) :
    ∀ j, 1 ≤ j → j ≤ capacity → mapGet m j ≠ none := by
  have hnd : ((List.range capacity.toNat).map (fun t : Nat => 1 + (t : Int))).Nodup := by
    apply List.Nodup.map _ (List.nodup_range _)
    intro a b hab
    simpa using hab
  have hsub : m.map Prod.fst ⊆
      (List.range capacity.toNat).map (fun t : Nat => 1 + (t : Int)) := by
    intro k hk
    obtain ⟨e, he, rfl⟩ := List.mem_map.mp hk
    obtain ⟨h1, h2⟩ := hkeys e he
    refine List.mem_map.mpr ⟨(e.1 - 1).toNat, List.mem_range.mpr (by omega), by omega⟩
  have hperm := (List.subperm_of_subset hwf hsub).perm_of_length_le (by
    simp only [List.length_map, List.length_range]
    omega)
  intro j h1 h2 hnone
  apply (mapGet_eq_none_iff m j).mp hnone
  apply hperm.mem_iff.mpr
  exact List.mem_map.mpr ⟨(j - 1).toNat, List.mem_range.mpr (by omega), by omega⟩

/-- The entry at which the loop of `Leave` stops is the first one, in the order of
the visit, that carries the registration. -/
theorem leaveLoop_some_first (r : String) (m : SlotMap) (s : Int)
    (h : leaveLoop r m = some s) :
    ∃ pre c post, m = pre ++ (s, c) :: post ∧ c.RegistrationNo = r ∧
      ∀ e ∈ pre, e.2.RegistrationNo ≠ r := by
  induction m with
  | nil => simp [leaveLoop] at h
  | cons e rest ih =>
    obtain ⟨k, w⟩ := e
    by_cases hw : w.RegistrationNo = r
    · simp only [leaveLoop, hw, if_true, Option.some.injEq] at h
      subst h
      exact ⟨[], w, rest, rfl, hw, by simp⟩
    · simp only [leaveLoop, hw, if_false] at h
      obtain ⟨pre, c, post, h1, h2, h3⟩ := ih h
      refine ⟨(k, w) :: pre, c, post, by rw [h1]; rfl, h2, ?_⟩
      intro e he
      rcases List.mem_cons.mp he with he | he
      · subst he
        exact hw
      · exact h3 e he

/-- What `Leave` does when exactly one occupied slot holds the registration. -/
theorem Leave_of_unique (p : ParkingLot) (hwf : SlotMap.WF p.slots) (r : String)
    (hours : Int) (s : Int) (c : Car) (hs : mapGet p.slots s = some c)
    (hc : c.RegistrationNo = r)
    (huniq : ∀ s' c', mapGet p.slots s' = some c' → c'.RegistrationNo = r → s' = s) :
    p.Leave r hours = ({ p with slots := mapDelete p.slots s },
      ["Registration number " ++ r ++ " with Slot Number " ++ toString s ++
        " is free with Charge $" ++ toString (calculateCharge hours)]) := by
  cases hl : leaveLoop r p.slots with
  | none =>
    exact absurd hc ((leaveLoop_eq_none_iff r p.slots).mp hl (s, c) (mem_of_mapGet _ _ _ hs))
  | some t =>
    obtain ⟨c', hc1, hc2⟩ := leaveLoop_some r p.slots t hl
    have ht : t = s := huniq t c' (mapGet_of_mem p.slots hwf t c' hc1) hc2
    subst ht
    simp only [ParkingLot.Leave, hl]

/-! ## Further lemmas on `calculateCharge` -/

theorem calculateCharge_of_le (h : Int) (hh : h ≤ 2) : calculateCharge h = 10 := by
  unfold calculateCharge
  rw [if_pos hh]

theorem calculateCharge_of_gt (h : Int) (hlo : 2 < h) (hhi : 10 + (h - 2) * 10 < 2 ^ 63) :
    calculateCharge h = 10 + (h - 2) * 10 := by
  unfold calculateCharge
  rw [if_neg (by omega)]
  rw [wrapInt_of_isInt64 (h - 2) (by unfold isInt64; omega)]
  rw [wrapInt_of_isInt64 ((h - 2) * 10) (by unfold isInt64; omega)]
  rw [wrapInt_of_isInt64 _ (by unfold isInt64; omega)]

theorem calculateCharge_bounds (h : Int) (hhi : 10 + (h - 2) * 10 < 2 ^ 63) :
    10 ≤ calculateCharge h ∧ 10 ∣ calculateCharge h ∧
      (2 < h → calculateCharge h = 10 + (h - 2) * 10) := by
  by_cases hh : h ≤ 2
  · rw [calculateCharge_of_le h hh]
    exact ⟨le_refl _, dvd_refl _, fun h2 => by omega⟩
  · rw [calculateCharge_of_gt h (by omega) hhi]
    exact ⟨by omega, ⟨h - 1, by ring⟩, fun _ => rfl⟩

/-! ## Lots of non-positive capacity -/

/-- From an initialisation with a capacity `n <= 0`, calls of `Park`, `Leave` and
`Status` never leave the empty lot of capacity `n`. -/
theorem reachable_of_nonpositive (n : Int) (hn : n ≤ 0) (p : ParkingLot)
    (h : ReachableBy (fun m => m = n) (fun _ => False) (fun _ _ => True) p) :
    p = NewParkingLot n := by
  induction h with
  | init m hm =>
    simp only at hm
    rw [hm]
  | create p m _ hm _ => exact absurd hm (by simp)
  | park p r _ _ ih =>
    rw [Park_of_ge p r (by rw [ih]; simpa [NewParkingLot] using hn)]
    exact ih
  | leave p r hours _ ih =>
    rw [ih]
    rfl
  | status p _ ih =>
    rw [Status_state]
    exact ih
  | reorder p order _ hperm ih =>
    rw [ih] at hperm ⊢
    have : order = [] := List.Perm.eq_nil hperm
    rw [this]
    rfl

/-! ## Claims about `Park` -/

/-- C1: in every lot with fewer occupied slots than capacity, `Park r` takes the
smallest slot number `i` of `[1, capacity]` that was free before the call, stores
the record with registration `r` and slot `i` there, prints
"Allocated slot number: i", and leaves capacity and every other slot as they were
(so the number of occupied slots grows by one). -/
theorem Park_allocates_lowest_free (p : ParkingLot) (r : String)
    (h : (p.slots.length : Int) < p.capacity) :
    ∃ i : Int, (1 ≤ i ∧ i ≤ p.capacity) ∧ mapGet p.slots i = none ∧
      (∀ j, 1 ≤ j → j < i → mapGet p.slots j ≠ none) ∧
      (p.Park r).2 = ["Allocated slot number: " ++ toString i] ∧
      mapGet (p.Park r).1.slots i = some { RegistrationNo := r, Slot := i } ∧
      (∀ j, j ≠ i → mapGet (p.Park r).1.slots j = mapGet p.slots j) ∧
      (p.Park r).1.capacity = p.capacity ∧
      (p.Park r).1.slots.length = p.slots.length + 1 := by
  obtain ⟨i, hi, hP⟩ := Park_of_lt p r h
  obtain ⟨h1, h2, h3, h4⟩ := parkLoop_some _ _ _ _ hi
  refine ⟨i, ⟨h1, by omega⟩, h3, h4, ?_, ?_, ?_, ?_, ?_⟩
  · rw [hP]
  · rw [hP]
    simp [mapGet_mapSet]
  · intro j hj
    rw [hP]
    have : ¬ i = j := fun e => hj e.symm
    simp [mapGet_mapSet, this]
  · rw [hP]
  · rw [hP]
    simp [mapSet_of_none _ _ _ h3]

theorem Park_allocates_lowest_free_witness :
    ((({ capacity := 3, slots := [(1, { RegistrationNo := "KA-01-HH-1234", Slot := 1 }),
        (3, { RegistrationNo := "KA-01-BB-0001", Slot := 3 })] } : ParkingLot).slots.length :
          Int) < 3) ∧
    ∃ i : Int, (1 ≤ i ∧ i ≤ 3) ∧
      mapGet [(1, { RegistrationNo := "KA-01-HH-1234", Slot := 1 }),
        (3, { RegistrationNo := "KA-01-BB-0001", Slot := 3 })] i = none ∧
      (∀ j, 1 ≤ j → j < i →
        mapGet [(1, { RegistrationNo := "KA-01-HH-1234", Slot := 1 }),
          (3, { RegistrationNo := "KA-01-BB-0001", Slot := 3 })] j ≠ none) ∧
      (({ capacity := 3, slots := [(1, { RegistrationNo := "KA-01-HH-1234", Slot := 1 }),
        (3, { RegistrationNo := "KA-01-BB-0001", Slot := 3 })] } : ParkingLot).Park
          "KA-01-HH-9999").2 = ["Allocated slot number: " ++ toString i] ∧
      mapGet (({ capacity := 3, slots := [(1, { RegistrationNo := "KA-01-HH-1234", Slot := 1 }),
        (3, { RegistrationNo := "KA-01-BB-0001", Slot := 3 })] } : ParkingLot).Park
          "KA-01-HH-9999").1.slots i = some { RegistrationNo := "KA-01-HH-9999", Slot := i } ∧
      (∀ j, j ≠ i →
        mapGet (({ capacity := 3, slots := [(1, { RegistrationNo := "KA-01-HH-1234", Slot := 1 }),
          (3, { RegistrationNo := "KA-01-BB-0001", Slot := 3 })] } : ParkingLot).Park
            "KA-01-HH-9999").1.slots j =
        mapGet [(1, { RegistrationNo := "KA-01-HH-1234", Slot := 1 }),
          (3, { RegistrationNo := "KA-01-BB-0001", Slot := 3 })] j) ∧
      (({ capacity := 3, slots := [(1, { RegistrationNo := "KA-01-HH-1234", Slot := 1 }),
        (3, { RegistrationNo := "KA-01-BB-0001", Slot := 3 })] } : ParkingLot).Park
          "KA-01-HH-9999").1.capacity = 3 ∧
      (({ capacity := 3, slots := [(1, { RegistrationNo := "KA-01-HH-1234", Slot := 1 }),
        (3, { RegistrationNo := "KA-01-BB-0001", Slot := 3 })] } : ParkingLot).Park
          "KA-01-HH-9999").1.slots.length = 2 + 1 :=
  ⟨by decide,
    Park_allocates_lowest_free
      { capacity := 3, slots := [(1, { RegistrationNo := "KA-01-HH-1234", Slot := 1 }),
        (3, { RegistrationNo := "KA-01-BB-0001", Slot := 3 })] }
      "KA-01-HH-9999" (by decide)⟩

/-- C2: starting from a freshly initialised lot of capacity `n`, parking `k <= n`
registrations one after the other prints "Allocated slot number: 1", ...,
"Allocated slot number: k" in that order, and leaves the `j`-th registration in
slot `j` for every `j` of `1..k`; the slot numbers handed out are the distinct
numbers `1, 2, ..., k`. -/
theorem parkAll_fresh_lot (p0 : ParkingLot) (n : Int) (regs : List String)
    (h : (regs.length : Int) ≤ n) :
    (parkAll (p0.CreateParkingLot n) regs).2 =
      (List.range' 1 regs.length).map
        (fun k : Nat => "Allocated slot number: " ++ toString (k : Int)) ∧
    (parkAll (p0.CreateParkingLot n) regs).1 =
      { capacity := n, slots := consecutiveSlots 0 regs } ∧
    (parkAll (NewParkingLot n) regs) = (parkAll (p0.CreateParkingLot n) regs) := by
  have key := parkAll_consecutive regs [] (p0.CreateParkingLot n) rfl
    (by simpa [ParkingLot.CreateParkingLot] using h)
  refine ⟨?_, ?_, rfl⟩
  · rw [key]
    simp
  · rw [key]
    simp [ParkingLot.CreateParkingLot]

theorem parkAll_fresh_lot_witness :
    (((["KA-01-HH-1234", "KA-01-HH-9999", "KA-01-BB-0001"] : List String).length : Int) ≤ 3) ∧
    ((parkAll ((NewParkingLot 0).CreateParkingLot 3)
        ["KA-01-HH-1234", "KA-01-HH-9999", "KA-01-BB-0001"]).2 =
      (List.range' 1 3).map
        (fun k : Nat => "Allocated slot number: " ++ toString (k : Int)) ∧
    (parkAll ((NewParkingLot 0).CreateParkingLot 3)
        ["KA-01-HH-1234", "KA-01-HH-9999", "KA-01-BB-0001"]).1 =
      { capacity := 3,
        slots := consecutiveSlots 0 ["KA-01-HH-1234", "KA-01-HH-9999", "KA-01-BB-0001"] } ∧
    (parkAll (NewParkingLot 3) ["KA-01-HH-1234", "KA-01-HH-9999", "KA-01-BB-0001"]) =
      (parkAll ((NewParkingLot 0).CreateParkingLot 3)
        ["KA-01-HH-1234", "KA-01-HH-9999", "KA-01-BB-0001"])) :=
  ⟨by decide,
    parkAll_fresh_lot (NewParkingLot 0) 3 ["KA-01-HH-1234", "KA-01-HH-9999", "KA-01-BB-0001"]
      (by decide)⟩

/-- C3: in every lot whose number of occupied slots is at least its capacity,
`Park` prints exactly "Sorry, parking lot is full" and changes nothing; this is
the case in particular once `capacity` registrations have been parked one after
the other into a freshly initialised lot. -/
theorem Park_full_lot (p : ParkingLot) (r : String)
    (h : (p.slots.length : Int) ≥ p.capacity)
    (p0 : ParkingLot) (n : Int) (regs : List String) (hn : (regs.length : Int) = n) :
    p.Park r = (p, ["Sorry, parking lot is full"]) ∧
    ((parkAll (p0.CreateParkingLot n) regs).1.slots.length : Int) = n ∧
    (parkAll (p0.CreateParkingLot n) regs).1.Park r =
      ((parkAll (p0.CreateParkingLot n) regs).1, ["Sorry, parking lot is full"]) := by
  have key := parkAll_consecutive regs [] (p0.CreateParkingLot n) rfl
    (by simp [ParkingLot.CreateParkingLot, hn])
  have hlen : ((parkAll (p0.CreateParkingLot n) regs).1.slots.length : Int) = n := by
    rw [key]
    simp [length_consecutiveSlots, hn]
  refine ⟨Park_of_ge p r h, hlen, Park_of_ge _ r ?_⟩
  rw [hlen, key]
  simp [ParkingLot.CreateParkingLot]

theorem Park_full_lot_witness :
    ((({ capacity := 1, slots := [(1, { RegistrationNo := "KA-01-HH-1234", Slot := 1 })] } :
        ParkingLot).slots.length : Int) ≥ 1) ∧
    (((["KA-01-HH-1234", "KA-01-HH-9999", "KA-01-BB-0001"] : List String).length : Int) = 3) ∧
    (({ capacity := 1, slots := [(1, { RegistrationNo := "KA-01-HH-1234", Slot := 1 })] } :
        ParkingLot).Park "KA-01-HH-7777" =
      ({ capacity := 1, slots := [(1, { RegistrationNo := "KA-01-HH-1234", Slot := 1 })] },
        ["Sorry, parking lot is full"]) ∧
    ((parkAll ((NewParkingLot 3).CreateParkingLot 3)
        ["KA-01-HH-1234", "KA-01-HH-9999", "KA-01-BB-0001"]).1.slots.length : Int) = 3 ∧
    (parkAll ((NewParkingLot 3).CreateParkingLot 3)
        ["KA-01-HH-1234", "KA-01-HH-9999", "KA-01-BB-0001"]).1.Park "KA-01-HH-7777" =
      ((parkAll ((NewParkingLot 3).CreateParkingLot 3)
        ["KA-01-HH-1234", "KA-01-HH-9999", "KA-01-BB-0001"]).1,
        ["Sorry, parking lot is full"])) :=
  ⟨by decide, by decide,
    Park_full_lot
      { capacity := 1, slots := [(1, { RegistrationNo := "KA-01-HH-1234", Slot := 1 })] }
      "KA-01-HH-7777" (by decide) (NewParkingLot 3) 3
      ["KA-01-HH-1234", "KA-01-HH-9999", "KA-01-BB-0001"] (by decide)⟩

/-! ## Claims about `Leave` -/

/-- C4: in every lot in which registration `r` is held by exactly one occupied
slot `s`, `Leave r h` prints the receipt "Registration number r with Slot Number s
is free with Charge $c" with `c = calculateCharge h`, makes slot `s` free, and
leaves capacity and the occupant of every other slot unchanged, in whatever order
the entries of the map are visited. -/
theorem Leave_parked (p : ParkingLot) (hwf : SlotMap.WF p.slots) (r : String) (hours : Int)
    (s : Int) (c : Car) (hs : mapGet p.slots s = some c) (hc : c.RegistrationNo = r)
    (huniq : ∀ s' c', mapGet p.slots s' = some c' → c'.RegistrationNo = r → s' = s)
    (order : SlotMap) (hperm : order.Perm p.slots) :
    (({ p with slots := order } : ParkingLot).Leave r hours).2 =
      ["Registration number " ++ r ++ " with Slot Number " ++ toString s ++
        " is free with Charge $" ++ toString (calculateCharge hours)] ∧
    mapGet (({ p with slots := order } : ParkingLot).Leave r hours).1.slots s = none ∧
    (∀ j, j ≠ s →
      mapGet (({ p with slots := order } : ParkingLot).Leave r hours).1.slots j =
        mapGet p.slots j) ∧
    (({ p with slots := order } : ParkingLot).Leave r hours).1.capacity = p.capacity := by
  have hwf' := WF_perm _ _ hperm hwf
  have hmem : (s, c) ∈ order := hperm.mem_iff.mpr (mem_of_mapGet _ _ _ hs)
  cases hl : leaveLoop r order with
  | none =>
    exact absurd hc ((leaveLoop_eq_none_iff r order).mp hl (s, c) hmem)
  | some t =>
    obtain ⟨c', hc1, hc2⟩ := leaveLoop_some r order t hl
    have ht : t = s := huniq t c'
      (by rw [← mapGet_perm _ _ hperm hwf]; exact mapGet_of_mem order hwf' t c' hc1) hc2
    subst ht
    simp only [ParkingLot.Leave, hl]
    refine ⟨trivial, ?_, ?_, trivial⟩
    · simp [mapGet_mapDelete]
    · intro j hj
      have : ¬ t = j := fun e => hj e.symm
      simp [mapGet_mapDelete, this, mapGet_perm _ _ hperm hwf]

theorem Leave_parked_witness :
    SlotMap.WF [(1, { RegistrationNo := "KA-01-HH-1234", Slot := 1 }),
      (2, { RegistrationNo := "KA-01-HH-9999", Slot := 2 })] ∧
    ((({ capacity := 3, slots := [(2, { RegistrationNo := "KA-01-HH-9999", Slot := 2 }),
        (1, { RegistrationNo := "KA-01-HH-1234", Slot := 1 })] } : ParkingLot).Leave
          "KA-01-HH-1234" 4).2 =
      ["Registration number " ++ "KA-01-HH-1234" ++ " with Slot Number " ++ toString (1 : Int) ++
        " is free with Charge $" ++ toString (calculateCharge 4)] ∧
    mapGet (({ capacity := 3, slots := [(2, { RegistrationNo := "KA-01-HH-9999", Slot := 2 }),
        (1, { RegistrationNo := "KA-01-HH-1234", Slot := 1 })] } : ParkingLot).Leave
          "KA-01-HH-1234" 4).1.slots 1 = none ∧
    (∀ j, j ≠ 1 →
      mapGet (({ capacity := 3, slots := [(2, { RegistrationNo := "KA-01-HH-9999", Slot := 2 }),
        (1, { RegistrationNo := "KA-01-HH-1234", Slot := 1 })] } : ParkingLot).Leave
          "KA-01-HH-1234" 4).1.slots j =
        mapGet [(1, { RegistrationNo := "KA-01-HH-1234", Slot := 1 }),
          (2, { RegistrationNo := "KA-01-HH-9999", Slot := 2 })] j) ∧
    (({ capacity := 3, slots := [(2, { RegistrationNo := "KA-01-HH-9999", Slot := 2 }),
        (1, { RegistrationNo := "KA-01-HH-1234", Slot := 1 })] } : ParkingLot).Leave
          "KA-01-HH-1234" 4).1.capacity = 3) :=
  ⟨by decide,
    Leave_parked
      { capacity := 3, slots := [(1, { RegistrationNo := "KA-01-HH-1234", Slot := 1 }),
        (2, { RegistrationNo := "KA-01-HH-9999", Slot := 2 })] }
      (by decide) "KA-01-HH-1234" 4 1 { RegistrationNo := "KA-01-HH-1234", Slot := 1 }
      (by decide) (by decide)
      (by
        intro s' c' h1 h2
        by_cases e1 : (1 : Int) = s'
        · exact e1.symm
        · by_cases e2 : (2 : Int) = s'
          · subst e2
            simp [mapGet] at h1
            subst h1
            exact absurd h2 (by decide)
          · simp [mapGet, e1, e2] at h1)
      [(2, { RegistrationNo := "KA-01-HH-9999", Slot := 2 }),
        (1, { RegistrationNo := "KA-01-HH-1234", Slot := 1 })]
      (List.Perm.swap _ _ _)⟩

/-- C5: in every lot and for every registration `r` that no occupied slot holds,
`Leave r hours` prints exactly "Registration number r not found" and changes
neither capacity nor occupancy, for every value of `hours`. -/
theorem Leave_not_parked (p : ParkingLot) (hwf : SlotMap.WF p.slots) (r : String)
    (hours : Int)
    (hfree : ∀ s c, mapGet p.slots s = some c → c.RegistrationNo ≠ r) :
    p.Leave r hours = (p, ["Registration number " ++ r ++ " not found"]) := by
  have hl : leaveLoop r p.slots = none := by
    rw [leaveLoop_eq_none_iff]
    intro e he
    exact hfree e.1 e.2 (mapGet_of_mem p.slots hwf e.1 e.2 he)
  simp only [ParkingLot.Leave, hl]

theorem Leave_not_parked_witness :
    SlotMap.WF [(1, { RegistrationNo := "KA-01-HH-1234", Slot := 1 }),
      (2, { RegistrationNo := "KA-01-HH-9999", Slot := 2 })] ∧
    ({ capacity := 3, slots := [(1, { RegistrationNo := "KA-01-HH-1234", Slot := 1 }),
        (2, { RegistrationNo := "KA-01-HH-9999", Slot := 2 })] } : ParkingLot).Leave
          "KA-01-XX-9999" 3 =
      ({ capacity := 3, slots := [(1, { RegistrationNo := "KA-01-HH-1234", Slot := 1 }),
        (2, { RegistrationNo := "KA-01-HH-9999", Slot := 2 })] },
        ["Registration number " ++ "KA-01-XX-9999" ++ " not found"]) :=
  ⟨by decide,
    Leave_not_parked
      { capacity := 3, slots := [(1, { RegistrationNo := "KA-01-HH-1234", Slot := 1 }),
        (2, { RegistrationNo := "KA-01-HH-9999", Slot := 2 })] }
      (by decide) "KA-01-XX-9999" 3
      (by
        intro s c h
        by_cases e1 : (1 : Int) = s
        · subst e1
          simp [mapGet] at h
          subst h
          decide
        · by_cases e2 : (2 : Int) = s
          · subst e2
            simp [mapGet] at h
            subst h
            decide
          · simp [mapGet, e1, e2] at h)⟩

/-! ## Claims about `calculateCharge` -/

/-- C6 (as stated, refuted): for the 64-bit integer `h = 922337203685477582`, which
is greater than 2, the sum `10 + (h-2)*10` leaves the 64-bit range and the code
returns `-9223372036854775806`, not `10 + (h-2)*10`; so the equation does not hold
for all integer hours greater than 2. -/
theorem calculateCharge_formula_counterexample :
    isInt64 922337203685477582 ∧ (2 : Int) < 922337203685477582 ∧
    calculateCharge 922337203685477582 = -9223372036854775806 ∧
    calculateCharge 922337203685477582 ≠ 10 + (922337203685477582 - 2) * 10 ∧
    ¬ (∀ h : Int, isInt64 h → 2 < h → calculateCharge h = 10 + (h - 2) * 10) := by
  refine ⟨by decide, by decide, by decide, by decide, ?_⟩
  intro hall
  exact absurd (hall 922337203685477582 (by decide) (by decide)) (by decide)

/-- C6 (amended): `calculateCharge` gives 10, 10, 20, 30, 40 for 1, 2, 3, 4, 5
hours, and for all integer hours `h` with `2 < h <= 922337203685477581`, the range
in which `10 + (h-2)*10` fits a 64-bit signed integer,
`calculateCharge h = 10 + (h-2)*10`. -/
theorem calculateCharge_formula (h : Int) (hlo : 2 < h) (hhi : h ≤ 922337203685477581) :
    calculateCharge 1 = 10 ∧ calculateCharge 2 = 10 ∧ calculateCharge 3 = 20 ∧
    calculateCharge 4 = 30 ∧ calculateCharge 5 = 40 ∧
    calculateCharge h = 10 + (h - 2) * 10 := by
  refine ⟨by decide, by decide, by decide, by decide, by decide, ?_⟩
  unfold calculateCharge
  rw [if_neg (by omega)]
  rw [wrapInt_of_isInt64 (h - 2) (by unfold isInt64; omega)]
  rw [wrapInt_of_isInt64 ((h - 2) * 10) (by unfold isInt64; omega)]
  rw [wrapInt_of_isInt64 _ (by unfold isInt64; omega)]

theorem calculateCharge_formula_witness :
    ((2 : Int) < 922337203685477581) ∧ ((922337203685477581 : Int) ≤ 922337203685477581) ∧
    (calculateCharge 1 = 10 ∧ calculateCharge 2 = 10 ∧ calculateCharge 3 = 20 ∧
    calculateCharge 4 = 30 ∧ calculateCharge 5 = 40 ∧
    calculateCharge 922337203685477581 = 10 + (922337203685477581 - 2) * 10) :=
  ⟨by decide, by decide, calculateCharge_formula 922337203685477581 (by decide) (by decide)⟩

/-! ## Claims about `Status` -/

/-- C8: for every lot, `Status` prints nothing at all, not even the header, if and
only if no slot is occupied. -/
theorem Status_silent_iff_empty (p : ParkingLot) :
    (p.Status).output = [] ↔ ∀ i, mapGet p.slots i = none := by
  unfold ParkingLot.Status
  cases hs : p.slots with
  | nil => simp [mapGet]
  | cons e rest =>
    obtain ⟨k, w⟩ := e
    have hne : ¬ ∀ i, mapGet ((k, w) :: rest) i = none := by
      intro h
      have := h k
      simp [mapGet] at this
    simp only [List.length_cons, Nat.succ_ne_zero, if_false, hne, iff_false]
    split_ifs <;> simp

/-- C7 (as stated, refuted): a lot created with capacity 9223372036854775807, the
largest 64-bit integer, in which one car is parked is reachable and has an
occupied slot, but `Status` does not return there: its counter wraps around
instead of exceeding the capacity, so the call prints on without end and does not
stop after one line for each occupied slot. -/
theorem Status_listing_counterexample :
    ReachableBy (fun _ => True) (fun _ => True) (fun _ _ => True) largestCapacityLot ∧
    largestCapacityLot =
      { capacity := 9223372036854775807,
        slots := [(1, { RegistrationNo := "KA-01-HH-1234", Slot := 1 })] } ∧
    (largestCapacityLot.Status).returns = false ∧
    ¬ (∀ p : ParkingLot, ReachableBy (fun _ => True) (fun _ => True) (fun _ _ => True) p →
        p.slots ≠ [] →
        (p.Status).returns = true ∧
        ∃ listing : SlotMap, listing.Perm p.slots ∧
          (listing.map Prod.fst).Pairwise (fun a b => a < b) ∧
          (p.Status).output = "Slot No. Registration No." ::
            listing.map (fun e => toString e.1 ++ " " ++ e.2.RegistrationNo) ∧
          (p.Status).lot = p) := by
  have hreach :
      ReachableBy (fun _ => True) (fun _ => True) (fun _ _ => True) largestCapacityLot :=
    ReachableBy.park _ _ (ReachableBy.init 9223372036854775807 trivial) trivial
  have hlot : largestCapacityLot =
      { capacity := 9223372036854775807,
        slots := [(1, { RegistrationNo := "KA-01-HH-1234", Slot := 1 })] } := by decide
  have hret : (largestCapacityLot.Status).returns = false := by
    rw [hlot]
    decide
  refine ⟨hreach, hlot, hret, ?_⟩
  intro hall
  have := (hall largestCapacityLot hreach (by rw [hlot]; simp)).1
  rw [hret] at this
  cases this

/-- C7 (amended): in every reachable lot with at least one occupied slot and a
capacity below 9223372036854775807, the largest 64-bit integer, `Status` returns
after printing the header "Slot No. Registration No." followed by the lines
"<slot> <registration>" of a list that holds every entry of the map exactly once
and no other, in strictly ascending order of slot number, whatever order the slots
were filled in; `Status` does not change the lot. -/
theorem Status_lists_occupied_ascending (p : ParkingLot)
    (hr : ReachableBy (fun _ => True) (fun _ => True) (fun _ _ => True) p) (hne : p.slots ≠ [])
    (hcap : p.capacity < 9223372036854775807) :
    (p.Status).returns = true ∧
    ∃ listing : SlotMap, listing.Perm p.slots ∧
      (listing.map Prod.fst).Pairwise (fun a b => a < b) ∧
      (p.Status).output = "Slot No. Registration No." ::
        listing.map (fun e => toString e.1 ++ " " ++ e.2.RegistrationNo) ∧
      (p.Status).lot = p := by
  obtain ⟨hwf, hkeys⟩ := reachable_inv _ _ _ p hr
  have hlen : p.slots.length ≠ 0 := fun h => hne (List.length_eq_zero.mp h)
  have hcap2 : p.capacity < 2 ^ 63 - 1 := by
    norm_num
    exact hcap
  have hS : p.Status =
      { lot := p,
        output := "Slot No. Registration No." :: statusLoop p.slots p.capacity.toNat 1,
        returns := true } := by
    unfold ParkingLot.Status
    rw [if_neg hlen, if_pos hcap2]
  refine ⟨by rw [hS], scanEntries p.slots p.capacity.toNat 1, ?_, scanEntries_sorted _ _ _, ?_,
    Status_state p⟩
  · apply scanEntries_perm _ _ _ hwf
    intro e he
    obtain ⟨h1, h2, _⟩ := hkeys e he
    omega
  · rw [hS, statusLoop_eq_map]

theorem Status_lists_occupied_ascending_witness :
    refilledLot.slots = [(2, { RegistrationNo := "KA-01-HH-9999", Slot := 2 }),
      (1, { RegistrationNo := "KA-01-BB-0001", Slot := 1 })] ∧
    refilledLot.Status =
      { lot := refilledLot,
        output := ["Slot No. Registration No.", "1 KA-01-BB-0001", "2 KA-01-HH-9999"],
        returns := true } ∧
    (refilledLot.capacity < 9223372036854775807) ∧
    ((refilledLot.Status).returns = true ∧
    ∃ listing : SlotMap, listing.Perm refilledLot.slots ∧
      (listing.map Prod.fst).Pairwise (fun a b => a < b) ∧
      (refilledLot.Status).output = "Slot No. Registration No." ::
        listing.map (fun e => toString e.1 ++ " " ++ e.2.RegistrationNo) ∧
      (refilledLot.Status).lot = refilledLot) :=
  ⟨by decide, by decide, by decide,
    Status_lists_occupied_ascending refilledLot
      (ReachableBy.park _ _
        (ReachableBy.leave _ _ _
          (ReachableBy.park _ _
            (ReachableBy.park _ _ (ReachableBy.init 2 trivial) trivial) trivial)) trivial)
      (by decide) (by decide)⟩

/-! ## Claims about the reachable states -/

/-- C9 (as stated, refuted): a lot created with capacity 0 and initialised again
by `CreateParkingLot(-1)` is reachable from an initialisation with capacity `>= 0`
by a sequence of `CreateParkingLot` calls, and there the number of occupied
slots, 0, exceeds the capacity, -1. -/
theorem reachable_invariants_counterexample :
    ReachableBy (fun n => 0 ≤ n) (fun _ => True) (fun _ _ => True) shrunkLot ∧
    shrunkLot.slots.length = 0 ∧ shrunkLot.capacity = -1 ∧
    ¬ (∀ p : ParkingLot, ReachableBy (fun n => 0 ≤ n) (fun _ => True) (fun _ _ => True) p →
        (p.slots.length : Int) ≤ p.capacity) := by
  have hreach : ReachableBy (fun n => 0 ≤ n) (fun _ => True) (fun _ _ => True) shrunkLot :=
    ReachableBy.create _ (-1) (ReachableBy.init 0 (le_refl _)) trivial
  refine ⟨hreach, by decide, by decide, ?_⟩
  intro hall
  exact absurd (hall shrunkLot hreach) (by decide)

/-- C9 (amended): in every state reachable from an initialisation with capacity
`n >= 0` by any sequence of `Park`, `Leave`, `Status` and `CreateParkingLot`
calls in which every `CreateParkingLot` call is given a capacity `>= 0` as well,
the map has pairwise distinct keys, the number of occupied slots is at most the
capacity, every occupied slot number lies in `[1, capacity]`, and the record
stored under slot number `i` has `Slot = i`. -/
theorem reachable_invariants (p : ParkingLot)
    (hr : ReachableBy (fun n => 0 ≤ n) (fun n => 0 ≤ n) (fun _ _ => True) p) :
    SlotMap.WF p.slots ∧ (p.slots.length : Int) ≤ p.capacity ∧
    ∀ i car, mapGet p.slots i = some car → (1 ≤ i ∧ i ≤ p.capacity) ∧ car.Slot = i := by
  obtain ⟨hwf, hkeys⟩ := reachable_inv _ _ _ p hr
  refine ⟨hwf, reachable_count _ p hr, ?_⟩
  intro i car hg
  obtain ⟨h1, h2, h3⟩ := hkeys (i, car) (mem_of_mapGet _ _ _ hg)
  exact ⟨⟨h1, h2⟩, h3⟩

theorem reachable_invariants_witness :
    reinitialisedLot =
      { capacity := 2, slots := [(1, { RegistrationNo := "KA-01-BB-0001", Slot := 1 })] } ∧
    (SlotMap.WF reinitialisedLot.slots ∧
      (reinitialisedLot.slots.length : Int) ≤ reinitialisedLot.capacity ∧
      ∀ i car, mapGet reinitialisedLot.slots i = some car →
        (1 ≤ i ∧ i ≤ reinitialisedLot.capacity) ∧ car.Slot = i) :=
  ⟨by decide,
    reachable_invariants reinitialisedLot
      (ReachableBy.status _
        (ReachableBy.park _ _
          (ReachableBy.create _ 2
            (ReachableBy.leave _ _ _
              (ReachableBy.park _ _
                (ReachableBy.park _ _ (ReachableBy.init 3 (by decide)) trivial) trivial))
            (by decide)) trivial))⟩

/-- C10 (as stated, refuted): two `Park` calls with the same registration into a
fresh lot of capacity 2 reach a state in which slots 1 and 2 both hold that
registration; so it is not true that in every reachable state a registration
appears in at most one occupied slot. -/
theorem registration_unique_counterexample :
    ReachableBy (fun _ => True) (fun _ => True) (fun _ _ => True) twiceParkedLot ∧
    mapGet twiceParkedLot.slots 1 = some { RegistrationNo := "KA-01-HH-1234", Slot := 1 } ∧
    mapGet twiceParkedLot.slots 2 = some { RegistrationNo := "KA-01-HH-1234", Slot := 2 } ∧
    ¬ (∀ p : ParkingLot, ReachableBy (fun _ => True) (fun _ => True) (fun _ _ => True) p →
        ∀ s1 s2 c1 c2, mapGet p.slots s1 = some c1 → mapGet p.slots s2 = some c2 →
          c1.RegistrationNo = c2.RegistrationNo → s1 = s2) := by
  have hreach : ReachableBy (fun _ => True) (fun _ => True) (fun _ _ => True) twiceParkedLot :=
    ReachableBy.park _ _ (ReachableBy.park _ _ (ReachableBy.init 2 trivial) trivial) trivial
  have h1 : mapGet twiceParkedLot.slots 1 =
      some { RegistrationNo := "KA-01-HH-1234", Slot := 1 } := by decide
  have h2 : mapGet twiceParkedLot.slots 2 =
      some { RegistrationNo := "KA-01-HH-1234", Slot := 2 } := by decide
  refine ⟨hreach, h1, h2, ?_⟩
  intro hall
  exact absurd (hall twiceParkedLot hreach 1 2 _ _ h1 h2 rfl) (by decide)

/-- C10 (amended): in every state reachable from initialisation by any sequence of
`Park` and `Leave` calls in which no `Park` call is given a registration that an
occupied slot holds at the time of the call, a registration appears in at most
one occupied slot: no two distinct occupied slots hold records with the same
`RegistrationNo`. -/
theorem registration_unique_when_parked_once (p : ParkingLot)
    (hr : ReachableBy (fun _ => True) (fun _ => True)
      (fun q r => ∀ s c, mapGet q.slots s = some c → c.RegistrationNo ≠ r) p) :
    ∀ s1 s2 c1 c2, mapGet p.slots s1 = some c1 → mapGet p.slots s2 = some c2 →
      c1.RegistrationNo = c2.RegistrationNo → s1 = s2 := by
  intro s1 s2 c1 c2 h1 h2 heq
  have hnd := reachable_regs_nodup _ _ p hr
  have hinj := List.inj_on_of_nodup_map hnd
    (mem_of_mapGet _ _ _ h1) (mem_of_mapGet _ _ _ h2) heq
  exact congrArg Prod.fst hinj

theorem registration_unique_when_parked_once_witness :
    reparkedLot.slots = [(2, { RegistrationNo := "KA-01-HH-9999", Slot := 2 }),
      (1, { RegistrationNo := "KA-01-HH-1234", Slot := 1 })] ∧
    ∀ s1 s2 c1 c2, mapGet reparkedLot.slots s1 = some c1 →
      mapGet reparkedLot.slots s2 = some c2 →
      c1.RegistrationNo = c2.RegistrationNo → s1 = s2 :=
  ⟨by decide,
    registration_unique_when_parked_once reparkedLot
      (ReachableBy.park _ _
        (ReachableBy.leave _ _ _
          (ReachableBy.park _ _
            (ReachableBy.park _ _ (ReachableBy.init 2 trivial)
              (not_held_of_entries _ _ (by decide)))
            (not_held_of_entries _ _ (by decide))))
        (not_held_of_entries _ _ (by decide)))⟩

/-! ## Claims about duplicate parking, initialisation and slot reuse -/

/-- C11: `Park` performs no duplicate check: in every lot whose number of occupied
slots is at most `capacity - 2`, and for every registration `r`, parked already or
not, two consecutive `Park r` calls both print "Allocated slot number: ..." for two
distinct slot numbers `i` and `j`, both slots then hold a record with registration
`r`, every other slot is unchanged, and the number of occupied slots has grown
by 2. -/
theorem Park_twice_same_registration (p : ParkingLot) (r : String)
    (h : (p.slots.length : Int) + 2 ≤ p.capacity) :
    ∃ i j : Int, i ≠ j ∧ mapGet p.slots i = none ∧ mapGet p.slots j = none ∧
      (p.Park r).2 = ["Allocated slot number: " ++ toString i] ∧
      ((p.Park r).1.Park r).2 = ["Allocated slot number: " ++ toString j] ∧
      mapGet ((p.Park r).1.Park r).1.slots i = some { RegistrationNo := r, Slot := i } ∧
      mapGet ((p.Park r).1.Park r).1.slots j = some { RegistrationNo := r, Slot := j } ∧
      (∀ k, k ≠ i → k ≠ j → mapGet ((p.Park r).1.Park r).1.slots k = mapGet p.slots k) ∧
      ((p.Park r).1.Park r).1.slots.length = p.slots.length + 2 := by
  obtain ⟨i, _, hi, _, hP⟩ := Park_of_lt_spec p r (by omega)
  have hlen1 : (p.Park r).1.slots.length = p.slots.length + 1 := by
    rw [hP]
    simp [mapSet_of_none _ _ _ hi]
  have hcap1 : (p.Park r).1.capacity = p.capacity := by rw [hP]
  obtain ⟨j, _, hj, _, hQ⟩ := Park_of_lt_spec (p.Park r).1 r (by
    rw [hlen1, hcap1]
    push_cast
    omega)
  have hij : i ≠ j := by
    intro e
    subst e
    rw [hP] at hj
    simp [mapGet_mapSet] at hj
  have hj0 : mapGet p.slots j = none := by
    rw [hP] at hj
    simpa [mapGet_mapSet, hij] using hj
  refine ⟨i, j, hij, hi, hj0, by rw [hP], by rw [hQ], ?_, ?_, ?_, ?_⟩
  · rw [hQ]
    simp only [mapGet_mapSet, if_neg (Ne.symm hij)]
    rw [hP]
    simp [mapGet_mapSet]
  · rw [hQ]
    simp [mapGet_mapSet]
  · intro k hki hkj
    rw [hQ]
    simp only [mapGet_mapSet, if_neg (Ne.symm hkj)]
    rw [hP]
    simp [mapGet_mapSet, Ne.symm hki]
  · rw [hQ]
    simp only [mapSet_of_none _ _ _ hj, List.length_append, List.length_cons, List.length_nil]
    rw [hlen1]

theorem Park_twice_same_registration_witness :
    ((singleCarLot.slots.length : Int) + 2 ≤ singleCarLot.capacity) ∧
    ((singleCarLot.Park "KA-01-HH-1234").1.Park "KA-01-HH-1234").1.slots =
      [(1, { RegistrationNo := "KA-01-HH-1234", Slot := 1 }),
        (2, { RegistrationNo := "KA-01-HH-1234", Slot := 2 }),
        (3, { RegistrationNo := "KA-01-HH-1234", Slot := 3 })] ∧
    ∃ i j : Int, i ≠ j ∧ mapGet singleCarLot.slots i = none ∧
      mapGet singleCarLot.slots j = none ∧
      (singleCarLot.Park "KA-01-HH-1234").2 = ["Allocated slot number: " ++ toString i] ∧
      ((singleCarLot.Park "KA-01-HH-1234").1.Park "KA-01-HH-1234").2 =
        ["Allocated slot number: " ++ toString j] ∧
      mapGet ((singleCarLot.Park "KA-01-HH-1234").1.Park "KA-01-HH-1234").1.slots i =
        some { RegistrationNo := "KA-01-HH-1234", Slot := i } ∧
      mapGet ((singleCarLot.Park "KA-01-HH-1234").1.Park "KA-01-HH-1234").1.slots j =
        some { RegistrationNo := "KA-01-HH-1234", Slot := j } ∧
      (∀ k, k ≠ i → k ≠ j →
        mapGet ((singleCarLot.Park "KA-01-HH-1234").1.Park "KA-01-HH-1234").1.slots k =
          mapGet singleCarLot.slots k) ∧
      ((singleCarLot.Park "KA-01-HH-1234").1.Park "KA-01-HH-1234").1.slots.length =
        singleCarLot.slots.length + 2 :=
  ⟨by decide, by decide,
    Park_twice_same_registration singleCarLot "KA-01-HH-1234" (by decide)⟩

/-- C12: for every prior lot, of any capacity and occupancy, and every integer
`n`, `CreateParkingLot n` yields the lot of capacity `n` with empty occupancy, and
`NewParkingLot n` yields the same lot. -/
theorem CreateParkingLot_resets (p : ParkingLot) (n : Int) :
    (p.CreateParkingLot n).capacity = n ∧ (p.CreateParkingLot n).slots = [] ∧
    (∀ i, mapGet (p.CreateParkingLot n).slots i = none) ∧
    NewParkingLot n = p.CreateParkingLot n := by
  refine ⟨rfl, rfl, ?_, rfl⟩
  intro i
  rfl

/-- C13: a freed slot is immediately reusable: in every reachable lot in which
registration `r` is held by exactly one slot `s` and every slot numbered below `s`
is occupied, which is the case in particular whenever the lot is full,
`Leave r h` followed by `Park r2` allocates exactly slot `s` to `r2`. -/
theorem Leave_then_Park_reuses_slot (p : ParkingLot)
    (hr : ReachableBy (fun _ => True) (fun _ => True) (fun _ _ => True) p)
    (r : String) (hours : Int) (s : Int) (c : Car)
    (hs : mapGet p.slots s = some c) (hc : c.RegistrationNo = r)
    (huniq : ∀ s' c', mapGet p.slots s' = some c' → c'.RegistrationNo = r → s' = s)
    (hlow : (∀ j, 1 ≤ j → j < s → mapGet p.slots j ≠ none) ∨
      (p.slots.length : Int) ≥ p.capacity)
    (r2 : String) :
    ((p.Leave r hours).1.Park r2).2 = ["Allocated slot number: " ++ toString s] ∧
    mapGet ((p.Leave r hours).1.Park r2).1.slots s =
      some { RegistrationNo := r2, Slot := s } ∧
    (∀ j, j ≠ s → mapGet ((p.Leave r hours).1.Park r2).1.slots j = mapGet p.slots j) := by
  obtain ⟨hwf, hkeys⟩ := reachable_inv _ _ _ p hr
  have hkeys2 : ∀ e ∈ p.slots, 1 ≤ e.1 ∧ e.1 ≤ p.capacity :=
    fun e he => ⟨(hkeys e he).1, (hkeys e he).2.1⟩
  have hsr := hkeys2 (s, c) (mem_of_mapGet _ _ _ hs)
  have hbelow : ∀ j, 1 ≤ j → j < s → mapGet p.slots j ≠ none := by
    rcases hlow with h | h
    · exact h
    · intro j h1 h2
      exact all_occupied_of_full p.slots p.capacity hwf hkeys2 h j h1 (by
        have := hsr.2
        simp only at this
        omega)
  have hL := Leave_of_unique p hwf r hours s c hs hc huniq
  have hlen := length_mapDelete p.slots hwf s c hs
  have hle := length_le_of_keys_in_range p.slots p.capacity hwf hkeys2
  have hsr1 : (1 : Int) ≤ s := hsr.1
  have hsr2 : s ≤ p.capacity := hsr.2
  obtain ⟨i, hi1, hi, hi2, hP⟩ := Park_of_lt_spec (p.Leave r hours).1 r2 (by
    rw [hL]
    simp only
    omega)
  have his : i = s := by
    rw [hL] at hi hi2
    simp only [mapGet_mapDelete] at hi hi2
    by_contra hne
    rcases lt_or_gt_of_ne hne with hlt | hgt
    · have h1 : (1 : Int) ≤ i := hi1.1
      have hsi : ¬ s = i := fun e => hne e.symm
      rw [if_neg hsi] at hi
      exact hbelow i h1 hlt hi
    · exact hi2 s hsr1 hgt (by simp)
  subst his
  refine ⟨by rw [hP], ?_, ?_⟩
  · rw [hP]
    simp [mapGet_mapSet]
  · intro j hj
    rw [hP]
    simp only [mapGet_mapSet, if_neg (Ne.symm hj)]
    rw [hL]
    simp [mapGet_mapDelete, Ne.symm hj]

theorem Leave_then_Park_reuses_slot_witness :
    fullLot =
      { capacity := 2,
        slots := [(1, { RegistrationNo := "KA-01-HH-1234", Slot := 1 }),
          (2, { RegistrationNo := "KA-01-HH-9999", Slot := 2 })] } ∧
    (((fullLot.Leave "KA-01-HH-1234" 4).1.Park "KA-01-HH-7777").2 =
      ["Allocated slot number: " ++ toString (1 : Int)] ∧
    mapGet ((fullLot.Leave "KA-01-HH-1234" 4).1.Park "KA-01-HH-7777").1.slots 1 =
      some { RegistrationNo := "KA-01-HH-7777", Slot := 1 } ∧
    (∀ j, j ≠ 1 →
      mapGet ((fullLot.Leave "KA-01-HH-1234" 4).1.Park "KA-01-HH-7777").1.slots j =
        mapGet fullLot.slots j)) :=
  ⟨by decide,
    Leave_then_Park_reuses_slot fullLot
      (ReachableBy.park _ _ (ReachableBy.park _ _ (ReachableBy.init 2 trivial) trivial) trivial)
      "KA-01-HH-1234" 4 1 { RegistrationNo := "KA-01-HH-1234", Slot := 1 }
      (by decide) (by decide)
      (fun s' c' h1 h2 => unique_of_entries fullLot.slots "KA-01-HH-1234" 1 (by decide) s' c' h1 h2)
      (Or.inr (by decide)) "KA-01-HH-7777"⟩

/-! ## The end-to-end scenario -/

/-- C14: on a lot created with capacity 3, `Park` of KA-01-HH-1234 is allocated
slot 1, of KA-01-HH-9999 slot 2, of KA-01-BB-0001 slot 3, `Park` of KA-01-HH-7777
signals that the lot is full and changes nothing, `Leave` of KA-01-HH-1234 after 4
hours reports slot 1 free with charge 30 and frees slot 1, and `Status` then prints
the header followed by slot 2 (KA-01-HH-9999) and slot 3 (KA-01-BB-0001), in that
order. -/
theorem end_to_end_scenario :
    scenarioCreated = { capacity := 3, slots := [] } ∧
    (scenarioCreated.Park "KA-01-HH-1234").2 = ["Allocated slot number: 1"] ∧
    (scenarioParked1.Park "KA-01-HH-9999").2 = ["Allocated slot number: 2"] ∧
    (scenarioParked2.Park "KA-01-BB-0001").2 = ["Allocated slot number: 3"] ∧
    scenarioParked3.Park "KA-01-HH-7777" = (scenarioParked3, ["Sorry, parking lot is full"]) ∧
    (scenarioParked4.Leave "KA-01-HH-1234" 4).2 =
      ["Registration number KA-01-HH-1234 with Slot Number 1 is free with Charge $30"] ∧
    scenarioLeft =
      { capacity := 3,
        slots := [(2, { RegistrationNo := "KA-01-HH-9999", Slot := 2 }),
          (3, { RegistrationNo := "KA-01-BB-0001", Slot := 3 })] } ∧
    mapGet scenarioLeft.slots 1 = none ∧
    scenarioLeft.Status =
      { lot := scenarioLeft,
        output := ["Slot No. Registration No.", "2 KA-01-HH-9999", "3 KA-01-BB-0001"],
        returns := true } := by
  refine ⟨rfl, ?_, ?_, ?_, ?_, ?_, ?_, ?_, ?_⟩
  · decide
  · decide
  · decide
  · decide
  · decide
  · decide
  · decide
  · decide

/-! ## Claims about hours and charges -/

/-- C15: hours are not validated: for every integer `h <= 2`, zero and the negative
values included, `calculateCharge h = 10`, and `Leave r h` on a registration `r`
that an occupied slot holds prints the receipt of such a slot with "Charge $10"
and frees that slot, instead of rejecting the call. -/
theorem Leave_short_or_negative_hours (h : Int) (hh : h ≤ 2) (p : ParkingLot)
    (hwf : SlotMap.WF p.slots) (r : String) (s : Int) (c : Car)
    (hs : mapGet p.slots s = some c) (hc : c.RegistrationNo = r) :
    calculateCharge h = 10 ∧ calculateCharge 0 = 10 ∧ calculateCharge (-1) = 10 ∧
    ∃ t ct, mapGet p.slots t = some ct ∧ ct.RegistrationNo = r ∧
      (p.Leave r h).2 =
        ["Registration number " ++ r ++ " with Slot Number " ++ toString t ++
          " is free with Charge $10"] ∧
      mapGet (p.Leave r h).1.slots t = none ∧
      (p.Leave r h).1.slots.length + 1 = p.slots.length := by
  refine ⟨calculateCharge_of_le h hh, by decide, by decide, ?_⟩
  cases hl : leaveLoop r p.slots with
  | none =>
    exact absurd hc ((leaveLoop_eq_none_iff r p.slots).mp hl (s, c) (mem_of_mapGet _ _ _ hs))
  | some t =>
    obtain ⟨ct, hc1, hc2⟩ := leaveLoop_some r p.slots t hl
    have hg := mapGet_of_mem p.slots hwf t ct hc1
    refine ⟨t, ct, hg, hc2, ?_, ?_, ?_⟩
    · simp only [ParkingLot.Leave, hl, calculateCharge_of_le h hh]
      rw [String.append_assoc _ " is free with Charge $" _]
      rfl
    · simp only [ParkingLot.Leave, hl]
      simp [mapGet_mapDelete]
    · simp only [ParkingLot.Leave, hl]
      exact length_mapDelete p.slots hwf t ct hg

theorem Leave_short_or_negative_hours_witness :
    ((-5 : Int) ≤ 2) ∧ SlotMap.WF fullLot.slots ∧
    (calculateCharge (-5) = 10 ∧ calculateCharge 0 = 10 ∧ calculateCharge (-1) = 10 ∧
    ∃ t ct, mapGet fullLot.slots t = some ct ∧ ct.RegistrationNo = "KA-01-HH-9999" ∧
      (fullLot.Leave "KA-01-HH-9999" (-5)).2 =
        ["Registration number " ++ "KA-01-HH-9999" ++ " with Slot Number " ++ toString t ++
          " is free with Charge $10"] ∧
      mapGet (fullLot.Leave "KA-01-HH-9999" (-5)).1.slots t = none ∧
      (fullLot.Leave "KA-01-HH-9999" (-5)).1.slots.length + 1 = fullLot.slots.length) :=
  ⟨by decide, by decide,
    Leave_short_or_negative_hours (-5) (by decide) fullLot (by decide) "KA-01-HH-9999" 2
      { RegistrationNo := "KA-01-HH-9999", Slot := 2 } (by decide) (by decide)⟩

/-- C19: the fee never decreases with a longer stay and is never below the base
rate: for all integers `h1 <= h2` for which `10 + (h2-2)*10` does not exceed the
64-bit signed range (no lower bound on the hours is needed),
`calculateCharge h1 <= calculateCharge h2`, and both charges are at least 10 and
multiples of 10. -/
theorem calculateCharge_monotone (h1 h2 : Int) (hle : h1 ≤ h2)
    (hhi : 10 + (h2 - 2) * 10 < 2 ^ 63) :
    calculateCharge h1 ≤ calculateCharge h2 ∧
    10 ≤ calculateCharge h1 ∧ 10 ≤ calculateCharge h2 ∧
    10 ∣ calculateCharge h1 ∧ 10 ∣ calculateCharge h2 := by
  have hhi1 : 10 + (h1 - 2) * 10 < 2 ^ 63 := by omega
  obtain ⟨a1, a2, a3⟩ := calculateCharge_bounds h1 hhi1
  obtain ⟨b1, b2, b3⟩ := calculateCharge_bounds h2 hhi
  refine ⟨?_, a1, b1, a2, b2⟩
  by_cases hh1 : h1 ≤ 2
  · rw [calculateCharge_of_le h1 hh1]
    exact b1
  · rw [a3 (by omega), b3 (by omega)]
    omega

theorem calculateCharge_monotone_witness :
    ((-3 : Int) ≤ 922337203685477581) ∧
    ((10 : Int) + (922337203685477581 - 2) * 10 < 2 ^ 63) ∧
    (calculateCharge (-3) ≤ calculateCharge 922337203685477581 ∧
    10 ≤ calculateCharge (-3) ∧ 10 ≤ calculateCharge 922337203685477581 ∧
    10 ∣ calculateCharge (-3) ∧ 10 ∣ calculateCharge 922337203685477581) :=
  ⟨by decide, by decide,
    calculateCharge_monotone (-3) 922337203685477581 (by decide) (by decide)⟩

/-! ## Claims about duplicates on `Leave` and the termination of `Park` -/

/-- C16: when the same registration `r` occupies two or more slots, `Leave r h`
releases exactly one of them, the slot `t` named in its receipt: `t` is the first
entry carrying `r` in the order in which the map is visited, the number of occupied
slots drops by exactly 1, and every other slot, the other slots holding `r`
included, keeps its occupant; and each slot holding `r` is the one released under
some order of visiting the map. -/
theorem Leave_releases_one_duplicate (p : ParkingLot) (hwf : SlotMap.WF p.slots)
    (r : String) (hours : Int) (s1 s2 : Int) (c1 c2 : Car) (hne : s1 ≠ s2)
    (h1 : mapGet p.slots s1 = some c1) (h2 : mapGet p.slots s2 = some c2)
    (hr1 : c1.RegistrationNo = r) (hr2 : c2.RegistrationNo = r) :
    (∃ t ct, mapGet p.slots t = some ct ∧ ct.RegistrationNo = r ∧
      (∃ pre post, p.slots = pre ++ (t, ct) :: post ∧ ∀ e ∈ pre, e.2.RegistrationNo ≠ r) ∧
      (p.Leave r hours).2 =
        ["Registration number " ++ r ++ " with Slot Number " ++ toString t ++
          " is free with Charge $" ++ toString (calculateCharge hours)] ∧
      mapGet (p.Leave r hours).1.slots t = none ∧
      (∀ j, j ≠ t → mapGet (p.Leave r hours).1.slots j = mapGet p.slots j) ∧
      (∃ u cu, u ≠ t ∧ mapGet (p.Leave r hours).1.slots u = some cu ∧
        cu.RegistrationNo = r) ∧
      (p.Leave r hours).1.slots.length + 1 = p.slots.length ∧
      (p.Leave r hours).1.capacity = p.capacity) ∧
    (∀ s c, mapGet p.slots s = some c → c.RegistrationNo = r →
      ∃ order : SlotMap, order.Perm p.slots ∧
        (({ p with slots := order } : ParkingLot).Leave r hours).2 =
          ["Registration number " ++ r ++ " with Slot Number " ++ toString s ++
            " is free with Charge $" ++ toString (calculateCharge hours)] ∧
        mapGet (({ p with slots := order } : ParkingLot).Leave r hours).1.slots s = none ∧
        ∀ j, j ≠ s →
          mapGet (({ p with slots := order } : ParkingLot).Leave r hours).1.slots j =
            mapGet p.slots j) := by
  constructor
  · cases hl : leaveLoop r p.slots with
    | none =>
      exact absurd hr1
        ((leaveLoop_eq_none_iff r p.slots).mp hl (s1, c1) (mem_of_mapGet _ _ _ h1))
    | some t =>
      obtain ⟨pre, ct, post, hsplit, hct, hpre⟩ := leaveLoop_some_first r p.slots t hl
      have hmem : (t, ct) ∈ p.slots := by
        rw [hsplit]
        simp
      have hg := mapGet_of_mem p.slots hwf t ct hmem
      have hother : ∀ j, j ≠ t →
          mapGet (mapDelete p.slots t) j = mapGet p.slots j := by
        intro j hj
        simp [mapGet_mapDelete, Ne.symm hj]
      refine ⟨t, ct, hg, hct, ⟨pre, post, hsplit, hpre⟩, ?_, ?_, ?_, ?_, ?_, ?_⟩
      · simp only [ParkingLot.Leave, hl]
      · simp only [ParkingLot.Leave, hl]
        simp [mapGet_mapDelete]
      · simp only [ParkingLot.Leave, hl]
        exact hother
      · simp only [ParkingLot.Leave, hl]
        by_cases e1 : s1 = t
        · have e2 : s2 ≠ t := fun e => hne (e1.trans e.symm)
          exact ⟨s2, c2, e2, by rw [hother s2 e2]; exact h2, hr2⟩
        · exact ⟨s1, c1, e1, by rw [hother s1 e1]; exact h1, hr1⟩
      · simp only [ParkingLot.Leave, hl]
        exact length_mapDelete p.slots hwf t ct hg
      · simp only [ParkingLot.Leave, hl]
  · intro s c hs hc
    obtain ⟨pre, post, hsplit⟩ := List.append_of_mem (mem_of_mapGet _ _ _ hs)
    have hperm : ((s, c) :: (pre ++ post)).Perm p.slots := by
      rw [hsplit]
      exact List.perm_middle.symm
    have hl : leaveLoop r ((s, c) :: (pre ++ post)) = some s := by
      simp [leaveLoop, hc]
    refine ⟨(s, c) :: (pre ++ post), hperm, ?_, ?_, ?_⟩
    · simp only [ParkingLot.Leave, hl]
    · simp only [ParkingLot.Leave, hl]
      simp [mapGet_mapDelete]
    · intro j hj
      simp only [ParkingLot.Leave, hl]
      rw [mapGet_mapDelete, if_neg (Ne.symm hj)]
      exact mapGet_perm _ _ hperm hwf j

/-- C17: `Park` ends in every lot, for any capacity and any map, with exactly one
of its two outcomes: either the number of occupied slots is at least the capacity
and it prints the lot-full message, or it is less and the ascending scan finds a
free slot `i` within its first `occupied + 1` iterations, so that
`1 <= i <= occupied + 1 <= capacity`, and prints the allocation of `i`; in both
cases exactly one line is printed, so the loop never ends without an outcome. -/
theorem Park_total_outcome (p : ParkingLot) (r : String) :
    (((p.slots.length : Int) ≥ p.capacity ∧
        p.Park r = (p, ["Sorry, parking lot is full"])) ∨
      ((p.slots.length : Int) < p.capacity ∧
        ∃ i : Int, (1 ≤ i ∧ i ≤ (p.slots.length : Int) + 1 ∧
            (p.slots.length : Int) + 1 ≤ p.capacity) ∧
          parkLoop p.slots (p.slots.length + 1) 1 = some i ∧
          mapGet p.slots i = none ∧
          p.Park r =
            ({ p with slots := mapSet p.slots i { RegistrationNo := r, Slot := i } },
              ["Allocated slot number: " ++ toString i]))) ∧
    (p.Park r).2.length = 1 := by
  by_cases h : (p.slots.length : Int) ≥ p.capacity
  · have hP := Park_of_ge p r h
    exact ⟨Or.inl ⟨h, hP⟩, by rw [hP]; rfl⟩
  · have hlt : (p.slots.length : Int) < p.capacity := by omega
    obtain ⟨i, hi, hP⟩ := Park_of_lt p r hlt
    obtain ⟨h1, _, h3, h4⟩ := parkLoop_some _ _ _ _ hi
    have hshort : parkLoop p.slots (p.slots.length + 1) 1 = some i := by
      cases hq : parkLoop p.slots (p.slots.length + 1) 1 with
      | none =>
        have := occupied_run_le_length p.slots 1 (p.slots.length + 1)
          (parkLoop_none p.slots _ 1 hq)
        omega
      | some i' =>
        have := parkLoop_mono p.slots _ p.capacity.toNat 1 i' hq (by omega)
        rw [hi] at this
        exact this.symm
    obtain ⟨_, h2', _, _⟩ := parkLoop_some _ _ _ _ hshort
    refine ⟨Or.inr ⟨hlt, i, ⟨h1, by push_cast at h2'; omega, by omega⟩, hshort, h3, hP⟩, ?_⟩
    rw [hP]
    rfl

theorem Leave_releases_one_duplicate_witness :
    twiceParkedLot =
      { capacity := 2,
        slots := [(1, { RegistrationNo := "KA-01-HH-1234", Slot := 1 }),
          (2, { RegistrationNo := "KA-01-HH-1234", Slot := 2 })] } ∧
    (twiceParkedLot.Leave "KA-01-HH-1234" 3).1.slots =
      [(2, { RegistrationNo := "KA-01-HH-1234", Slot := 2 })] ∧
    ((∃ t ct, mapGet twiceParkedLot.slots t = some ct ∧ ct.RegistrationNo = "KA-01-HH-1234" ∧
      (∃ pre post, twiceParkedLot.slots = pre ++ (t, ct) :: post ∧
        ∀ e ∈ pre, e.2.RegistrationNo ≠ "KA-01-HH-1234") ∧
      (twiceParkedLot.Leave "KA-01-HH-1234" 3).2 =
        ["Registration number " ++ "KA-01-HH-1234" ++ " with Slot Number " ++ toString t ++
          " is free with Charge $" ++ toString (calculateCharge 3)] ∧
      mapGet (twiceParkedLot.Leave "KA-01-HH-1234" 3).1.slots t = none ∧
      (∀ j, j ≠ t → mapGet (twiceParkedLot.Leave "KA-01-HH-1234" 3).1.slots j =
        mapGet twiceParkedLot.slots j) ∧
      (∃ u cu, u ≠ t ∧ mapGet (twiceParkedLot.Leave "KA-01-HH-1234" 3).1.slots u = some cu ∧
        cu.RegistrationNo = "KA-01-HH-1234") ∧
      (twiceParkedLot.Leave "KA-01-HH-1234" 3).1.slots.length + 1 =
        twiceParkedLot.slots.length ∧
      (twiceParkedLot.Leave "KA-01-HH-1234" 3).1.capacity = twiceParkedLot.capacity) ∧
    (∀ s c, mapGet twiceParkedLot.slots s = some c → c.RegistrationNo = "KA-01-HH-1234" →
      ∃ order : SlotMap, order.Perm twiceParkedLot.slots ∧
        (({ twiceParkedLot with slots := order } : ParkingLot).Leave "KA-01-HH-1234" 3).2 =
          ["Registration number " ++ "KA-01-HH-1234" ++ " with Slot Number " ++ toString s ++
            " is free with Charge $" ++ toString (calculateCharge 3)] ∧
        mapGet (({ twiceParkedLot with slots := order } : ParkingLot).Leave
          "KA-01-HH-1234" 3).1.slots s = none ∧
        ∀ j, j ≠ s →
          mapGet (({ twiceParkedLot with slots := order } : ParkingLot).Leave
            "KA-01-HH-1234" 3).1.slots j = mapGet twiceParkedLot.slots j)) :=
  ⟨by decide, by decide,
    Leave_releases_one_duplicate twiceParkedLot (by decide) "KA-01-HH-1234" 3 1 2
      { RegistrationNo := "KA-01-HH-1234", Slot := 1 }
      { RegistrationNo := "KA-01-HH-1234", Slot := 2 }
      (by decide) (by decide) (by decide) (by decide) (by decide)⟩

/-! ## Claims about the command interpreter and non-positive capacities -/

/-- C18: in the command interpreter, while the lot is absent (no
`create_parking_lot` line has succeeded yet), every `park <reg>` line, every
`leave <reg> <hours>` line, whatever its hours field, and every line whose command
is `status` prints exactly "Parking lot not initialized" and leaves the lot absent,
no operation of the lot being applied; a line leaves the lot absent unless it is
`create_parking_lot <N>` with `N` an integer for `strconv.Atoi`; and such a line
makes the lot present with capacity `N` and empty occupancy, whatever it was
before. -/
theorem interpreter_not_initialized (atoi : String → Option Int)
    (regNo hoursText : String) (rest : List String) (lot : Option ParkingLot)
    (tok : String) (n : Int) (hn : atoi tok = some n) :
    processLine atoi none ["park", regNo] =
      { lot := none, output := ["Parking lot not initialized"], returns := true } ∧
    processLine atoi none ["leave", regNo, hoursText] =
      { lot := none, output := ["Parking lot not initialized"], returns := true } ∧
    processLine atoi none ("status" :: rest) =
      { lot := none, output := ["Parking lot not initialized"], returns := true } ∧
    (∀ parts, (processLine atoi none parts).lot = none ∨
      ∃ t m, parts = ["create_parking_lot", t] ∧ atoi t = some m) ∧
    processLine atoi lot ["create_parking_lot", tok] =
      { lot := some { capacity := n, slots := [] }, output := [], returns := true } := by
  refine ⟨by simp [processLine], by simp [processLine], by simp [processLine], ?_, ?_⟩
  · intro parts
    cases parts with
    | nil => exact Or.inl rfl
    | cons command args =>
      by_cases hc : command = "create_parking_lot"
      · subst hc
        cases args with
        | nil => exact Or.inl (by simp [processLine])
        | cons arg more =>
          cases more with
          | nil =>
            cases ha : atoi arg with
            | none => exact Or.inl (by simp [processLine, ha])
            | some m => exact Or.inr ⟨arg, m, rfl, ha⟩
          | cons _ _ => exact Or.inl (by simp [processLine])
      · left
        simp only [processLine, hc, if_false]
        split_ifs
        · split <;> rfl
        · split <;> rfl
        · rfl
        · rfl
  · simp [processLine, hn, NewParkingLot, ParkingLot.CreateParkingLot]

theorem interpreter_not_initialized_witness :
    ((fun t : String => if t = "6" then some (6 : Int) else none) "6" = some 6) ∧
    (processLine (fun t : String => if t = "6" then some (6 : Int) else none) none
        ["park", "KA-01-HH-1234"] =
      { lot := none, output := ["Parking lot not initialized"], returns := true } ∧
    processLine (fun t : String => if t = "6" then some (6 : Int) else none) none
        ["leave", "KA-01-HH-1234", "4"] =
      { lot := none, output := ["Parking lot not initialized"], returns := true } ∧
    processLine (fun t : String => if t = "6" then some (6 : Int) else none) none
        ("status" :: []) =
      { lot := none, output := ["Parking lot not initialized"], returns := true } ∧
    (∀ parts, (processLine (fun t : String => if t = "6" then some (6 : Int) else none)
        none parts).lot = none ∨
      ∃ t m, parts = ["create_parking_lot", t] ∧
        (fun t : String => if t = "6" then some (6 : Int) else none) t = some m) ∧
    processLine (fun t : String => if t = "6" then some (6 : Int) else none) (some fullLot)
        ["create_parking_lot", "6"] =
      { lot := some { capacity := 6, slots := [] }, output := [], returns := true }) :=
  ⟨by decide,
    interpreter_not_initialized (fun t : String => if t = "6" then some (6 : Int) else none)
      "KA-01-HH-1234" "4" [] (some fullLot) "6" 6 (by decide)⟩

/-- C20: a non-positive capacity is accepted and yields a permanently empty lot:
`CreateParkingLot n` with `n <= 0` gives the empty lot of capacity `n`, and in every
state reached from it by `Park`, `Leave` and `Status` calls the lot is still that
empty lot, every `Park` call prints the lot-full message, every `Leave` call the
not-found message, and `Status` prints nothing. -/
theorem nonpositive_capacity_lot_stays_empty (n : Int) (hn : n ≤ 0) (p0 p : ParkingLot)
    (hr : ReachableBy (fun m => m = n) (fun _ => False) (fun _ _ => True) p)
    (r : String) (hours : Int) :
    p0.CreateParkingLot n = NewParkingLot n ∧
    p = { capacity := n, slots := [] } ∧
    p.Park r = (p, ["Sorry, parking lot is full"]) ∧
    p.Leave r hours = (p, ["Registration number " ++ r ++ " not found"]) ∧
    p.Status = { lot := p, output := [], returns := true } := by
  have hp := reachable_of_nonpositive n hn p hr
  refine ⟨rfl, hp, ?_, ?_, ?_⟩
  · exact Park_of_ge p r (by rw [hp]; simpa [NewParkingLot] using hn)
  · rw [hp]
    rfl
  · rw [hp]
    rfl

theorem nonpositive_capacity_lot_stays_empty_witness :
    ((-2 : Int) ≤ 0) ∧
    (fullLot.CreateParkingLot (-2) = NewParkingLot (-2) ∧
    negativeLot = { capacity := -2, slots := [] } ∧
    negativeLot.Park "KA-01-HH-9999" = (negativeLot, ["Sorry, parking lot is full"]) ∧
    negativeLot.Leave "KA-01-HH-9999" 4 =
      (negativeLot, ["Registration number " ++ "KA-01-HH-9999" ++ " not found"]) ∧
    negativeLot.Status = { lot := negativeLot, output := [], returns := true }) :=
  ⟨by decide,
    nonpositive_capacity_lot_stays_empty (-2) (by decide) fullLot negativeLot
      (ReachableBy.status _
        (ReachableBy.leave _ _ _
          (ReachableBy.park _ _ (ReachableBy.init (-2) rfl) trivial)))
      "KA-01-HH-9999" 4⟩

end ParkingLotModel
